import Mathlib

/-!
Verification development for the Document-Analyzer pipeline
(`app/logic.py`, `app/schema.py`, `app/main.py`, `app/llm.py`).

The Python source is shallowly embedded: strings are `String`/`List Char`,
Python dicts are insertion-ordered association lists with replace-on-update
semantics, Python floats are modeled as exact rationals `ℚ` (with 2-decimal
rounding modeled as round-half-to-even on exact rationals), and fallible
operations return `Option`/`Except`.  Error message texts raised by the
Python runtime are abstracted to fixed descriptive strings; no claim below
depends on the text of an error message.
-/

namespace DocAnalyzer

/-! ## Whitespace models -/

/-- Characters stripped by Python `str.strip()` (Unicode whitespace as
recognized by `str.isspace`, restricted to the code points that can occur
here; includes the JSON whitespace set). -/
def pythonWsB (c : Char) : Bool :=
  c.toNat = 32 || c.toNat = 9 || c.toNat = 10 || c.toNat = 13 || c.toNat = 11 ||
  c.toNat = 12 || (28 ≤ c.toNat && c.toNat ≤ 31) || c.toNat = 0x85 || c.toNat = 0xa0 ||
  c.toNat = 0x1680 || (0x2000 ≤ c.toNat && c.toNat ≤ 0x200a) ||
  c.toNat = 0x2028 || c.toNat = 0x2029 || c.toNat = 0x202f ||
  c.toNat = 0x205f || c.toNat = 0x3000

/-- JSON whitespace accepted between tokens by Python `json.loads`
(exactly space, tab, newline, carriage return). -/
def jsonWsB (c : Char) : Bool :=
  c.toNat = 32 || c.toNat = 9 || c.toNat = 10 || c.toNat = 13

/-- Python `str.strip()` on a character list: drop leading and trailing
whitespace. -/
def pyStripL (cs : List Char) : List Char :=
  ((cs.dropWhile pythonWsB).reverse.dropWhile pythonWsB).reverse

/-- Python `str.strip()`. -/
def pyStrip (s : String) : String := String.mk (pyStripL s.data)

/-- Skip JSON whitespace, as the CPython `json` scanner does between
tokens. -/
def skipWs (cs : List Char) : List Char := cs.dropWhile jsonWsB

/-! ## JSON values and a model of Python `json.loads`

The parser follows the CPython `json` module: strict strings (raw control
characters rejected, the standard escapes plus `\uXXXX`), numbers
`-?(0|[1-9]\d*)(\.\d+)?([eE][+-]?\d+)?`, objects with string keys and
last-duplicate-wins dict semantics, arrays, `true`/`false`/`null`.
Idealizations (irrelevant to every claim below): numbers are exact
rationals rather than Python int/float, the non-standard `NaN`/`Infinity`
literals are not modeled, and astral-plane `\uXXXX` surrogate pairs are
decoded escape-by-escape. -/

inductive J where
  | null : J
  | bool (b : Bool) : J
  | num (q : ℚ) : J
  | str (s : String) : J
  | arr (elems : List J) : J
  | obj (fields : List (String × J)) : J

/-- Insert into a Python-dict association list: an existing key keeps its
position and gets the new value, a new key is appended.  (The lists built
here are duplicate-free, so first-occurrence replacement is dict
assignment.) -/
def objInsert : List (String × J) → String → J → List (String × J)
  | [], k, v => [(k, v)]
  | p :: rest, k, v => if p.1 = k then (k, v) :: rest else p :: objInsert rest k v

/-- Dict lookup. -/
def jLookup (flds : List (String × J)) (k : String) : Option J :=
  (flds.find? (fun p => p.1 = k)).map (fun p => p.2)

def hexVal (c : Char) : Option ℕ :=
  if '0' ≤ c ∧ c ≤ '9' then some (c.toNat - '0'.toNat)
  else if 'a' ≤ c ∧ c ≤ 'f' then some (c.toNat - 'a'.toNat + 10)
  else if 'A' ≤ c ∧ c ≤ 'F' then some (c.toNat - 'A'.toNat + 10)
  else none

def decodeEsc : Char → Option Char
  | '"' => some '"'
  | '\\' => some '\\'
  | '/' => some '/'
  | 'b' => some (Char.ofNat 8)
  | 'f' => some (Char.ofNat 12)
  | 'n' => some '\n'
  | 'r' => some '\r'
  | 't' => some '\t'
  | _ => none

/-- Scan a JSON string body (the part after the opening quote): returns
the decoded characters and the remaining input after the closing quote. -/
def strChars : List Char → Option (List Char × List Char)
  | [] => none
  | '"' :: rest => some ([], rest)
  | '\\' :: 'u' :: a :: b :: c :: d :: rest =>
    match hexVal a, hexVal b, hexVal c, hexVal d with
    | some x, some y, some z, some w =>
      (strChars rest).map (fun p => (Char.ofNat (4096 * x + 256 * y + 16 * z + w) :: p.1, p.2))
    | _, _, _, _ => none
  | '\\' :: e :: rest =>
    match decodeEsc e with
    | some c => (strChars rest).map (fun p => (c :: p.1, p.2))
    | none => none
  | ['\\'] => none
  | c :: rest =>
    if c.toNat < 32 then none
    else (strChars rest).map (fun p => (c :: p.1, p.2))

def isDigitB (c : Char) : Bool := 48 ≤ c.toNat && c.toNat ≤ 57

def digitVal (c : Char) : ℕ := c.toNat - '0'.toNat

def digitsToNat (ds : List Char) : ℕ := ds.foldl (fun a c => 10 * a + digitVal c) 0

/-- Integer part of a JSON number: `0` or a nonzero digit followed by
digits (no leading zeros, as in the CPython number regex). -/
def parseIntPart : List Char → Option (List Char × List Char)
  | [] => none
  | c :: rest =>
    if c = '0' then some ([c], rest)
    else if isDigitB c then some (c :: rest.takeWhile isDigitB, rest.dropWhile isDigitB)
    else none

/-- Fractional part `(\.\d+)?`: consumed digits (possibly none) and rest. -/
def parseFracPart (cs : List Char) : List Char × List Char :=
  match cs with
  | '.' :: rest =>
    let ds := rest.takeWhile isDigitB
    if ds.isEmpty then ([], cs) else (ds, rest.dropWhile isDigitB)
  | _ => ([], cs)

/-- Exponent part `([eE][+-]?\d+)?`: exponent value (0 if absent) and rest. -/
def parseExpPart (cs : List Char) : ℤ × List Char :=
  match cs with
  | e :: rest =>
    if e = 'e' ∨ e = 'E' then
      let sgn : ℤ × List Char :=
        match rest with
        | '+' :: r => (1, r)
        | '-' :: r => (-1, r)
        | r => (1, r)
      let ds := sgn.2.takeWhile isDigitB
      if ds.isEmpty then (0, cs)
      else (sgn.1 * (digitsToNat ds : ℤ), sgn.2.dropWhile isDigitB)
    else (0, cs)
  | [] => (0, cs)

/-- JSON number per the CPython regex
`-?(0|[1-9]\d*)(\.\d+)?([eE][+-]?\d+)?`, valued in ℚ. -/
def parseNumber (cs : List Char) : Option (ℚ × List Char) :=
  let sgn : Bool × List Char :=
    match cs with
    | '-' :: rest => (true, rest)
    | _ => (false, cs)
  match parseIntPart sgn.2 with
  | none => none
  | some (ids, cs2) =>
    let fr := parseFracPart cs2
    let ex := parseExpPart fr.2
    let base : ℚ := (digitsToNat ids : ℚ) + (digitsToNat fr.1 : ℚ) / ((10 : ℚ) ^ fr.1.length)
    let signed := if sgn.1 then -base else base
    some (signed * (10 : ℚ) ^ ex.1, ex.2)

/-- Mode of the fuel-indexed JSON scanner: a single value, the tail of an
array (positioned at an element), or the tail of an object (positioned at
a key). -/
inductive PMode where
  | value : PMode
  | items (acc : List J) : PMode
  | members (acc : List (String × J)) : PMode

/-- Fuel-indexed model of the CPython `json` scanner.  `PMode.value`
expects the input positioned at a value (whitespace already skipped);
the loops mirror `JSONArray`/`JSONObject`. -/
def parseV : ℕ → PMode → List Char → Option (J × List Char)
  | 0, _, _ => none
  | f + 1, PMode.value, cs =>
    match cs with
    | '{' :: rest =>
      match skipWs rest with
      | '}' :: r2 => some (J.obj [], r2)
      | cs1 => parseV f (PMode.members []) cs1
    | '[' :: rest =>
      match skipWs rest with
      | ']' :: r2 => some (J.arr [], r2)
      | cs1 => parseV f (PMode.items []) cs1
    | '"' :: rest => (strChars rest).map (fun p => (J.str (String.mk p.1), p.2))
    | 't' :: 'r' :: 'u' :: 'e' :: rest => some (J.bool true, rest)
    | 'f' :: 'a' :: 'l' :: 's' :: 'e' :: rest => some (J.bool false, rest)
    | 'n' :: 'u' :: 'l' :: 'l' :: rest => some (J.null, rest)
    | _ => (parseNumber cs).map (fun p => (J.num p.1, p.2))
  | f + 1, PMode.items acc, cs =>
    match parseV f PMode.value cs with
    | none => none
    | some (v, rest) =>
      match skipWs rest with
      | ',' :: r2 => parseV f (PMode.items (acc ++ [v])) (skipWs r2)
      | ']' :: r2 => some (J.arr (acc ++ [v]), r2)
      | _ => none
  | f + 1, PMode.members acc, cs =>
    match cs with
    | '"' :: rest =>
      match strChars rest with
      | none => none
      | some (kcs, r1) =>
        match skipWs r1 with
        | ':' :: r2 =>
          match parseV f PMode.value (skipWs r2) with
          | none => none
          | some (v, r3) =>
            match skipWs r3 with
            | ',' :: r4 => parseV f (PMode.members (objInsert acc (String.mk kcs) v)) (skipWs r4)
            | '}' :: r4 => some (J.obj (objInsert acc (String.mk kcs) v), r4)
            | _ => none
        | _ => none
    | _ => none

/-- Model of Python `json.loads`: skip leading JSON whitespace, parse one
value, require only JSON whitespace to remain. -/
def json_loads (s : String) : Option J :=
  let cs1 := skipWs s.data
  match parseV (cs1.length + 1) PMode.value cs1 with
  | some (v, rest) => if (skipWs rest).isEmpty then some v else none
  | none => none

/-! ## The sanitizer's regular expressions

`FENCE_RE = ^```(?:json)?\s*|\s*```$` (multiline) and
`THINK_TAG_RE = </?think[^>]*>` (case-insensitive), both substituted by
the empty string with Python `re.sub` semantics (leftmost match, first
alternative preferred, scan resumes after each match). -/

/-- First alternative of `FENCE_RE` at the current position: requires a
line start, then three backticks, optional `json`, then greedy `\s*`.
Returns the matched length. -/
def fenceTry1 (atLS : Bool) (cs : List Char) : Option ℕ :=
  if atLS then
    match cs with
    | '`' :: '`' :: '`' :: rest =>
      let jn : ℕ × List Char :=
        match rest with
        | 'j' :: 's' :: 'o' :: 'n' :: r => (4, r)
        | r => (0, r)
      some (3 + jn.1 + (jn.2.takeWhile pythonWsB).length)
    | _ => none
  else none

/-- Second alternative of `FENCE_RE` at the current position: greedy `\s*`
then three backticks at a line end.  (Backtracking cannot shorten the
whitespace run, since the following character must be a backtick.) -/
def fenceTry2 (cs : List Char) : Option ℕ :=
  let k := (cs.takeWhile pythonWsB).length
  match cs.drop k with
  | '`' :: '`' :: '`' :: r2 =>
    match r2 with
    | [] => some (k + 3)
    | '\n' :: _ => some (k + 3)
    | _ => none
  | _ => none

/-- Scan of `FENCE_RE.sub("", ·)`; `prev` is the character before the
current position in the original text (for the multiline `^`). -/
def fenceAux : ℕ → Option Char → List Char → List Char
  | 0, _, cs => cs
  | _ + 1, _, [] => []
  | f + 1, prev, c :: rest =>
    let atLS : Bool :=
      match prev with
      | none => true
      | some p => p = '\n'
    match fenceTry1 atLS (c :: rest) with
    | some n => fenceAux f ((c :: rest).take n).getLast? ((c :: rest).drop n)
    | none =>
      match fenceTry2 (c :: rest) with
      | some n => fenceAux f ((c :: rest).take n).getLast? ((c :: rest).drop n)
      | none => c :: fenceAux f (some c) rest

/-- `FENCE_RE.sub("", s)`. -/
def fenceSub (s : String) : String := String.mk (fenceAux (s.data.length + 1) none s.data)

/-- Case-insensitive match of the literal `think` after `<` or `</`,
then `[^>]*>`; returns the matched length. -/
def thinkTry (cs : List Char) : Option ℕ :=
  match cs with
  | '<' :: rest =>
    let sl : ℕ × List Char :=
      match rest with
      | '/' :: r => (1, r)
      | r => (0, r)
    match sl.2 with
    | a :: b :: c :: d :: e :: r2 =>
      if a.toLower = 't' ∧ b.toLower = 'h' ∧ c.toLower = 'i' ∧ d.toLower = 'n' ∧ e.toLower = 'k' then
        let seg := r2.takeWhile (fun x => x ≠ '>')
        match r2.drop seg.length with
        | '>' :: _ => some (1 + sl.1 + 5 + seg.length + 1)
        | _ => none
      else none
    | _ => none
  | _ => none

def thinkAux : ℕ → List Char → List Char
  | 0, cs => cs
  | _ + 1, [] => []
  | f + 1, c :: rest =>
    match thinkTry (c :: rest) with
    | some n => thinkAux f ((c :: rest).drop n)
    | none => c :: thinkAux f rest

/-- `THINK_TAG_RE.sub("", s)`. -/
def thinkSub (s : String) : String := String.mk (thinkAux (s.data.length + 1) s.data)

/-- `re.sub(r"(?<!\\)'", '"', ·)`: replace single quotes not preceded by a
backslash (lookbehind inspects the original text). -/
def softQuoteAux : Option Char → List Char → List Char
  | _, [] => []
  | prev, c :: rest =>
    (if c = '\'' ∧ prev ≠ some '\\' then '"' else c) :: softQuoteAux (some c) rest

def softQuoteSub (s : String) : String := String.mk (softQuoteAux none s.data)

/-! ## `_find_balanced_json` and `_wrap_multiple_top_objects` -/

/-- The inner character scan of `_find_balanced_json` and
`_wrap_multiple_top_objects`: string-aware bracket depth counting, a
literal translation of the Python loop.  Returns the number of characters
up to and including the balancing closer. -/
def scanBal (opener closer : Char) : List Char → ℤ → Bool → Bool → ℕ → Option ℕ
  | [], _, _, _, _ => none
  | ch :: rest, depth, instr, esc, consumed =>
    let instr' := if ch = '"' ∧ ¬esc then !instr else instr
    if ch = '\\' ∧ ¬esc then scanBal opener closer rest depth instr' true (consumed + 1)
    else if instr' then scanBal opener closer rest depth instr' false (consumed + 1)
    else if ch = opener then scanBal opener closer rest (depth + 1) instr' false (consumed + 1)
    else if ch = closer then
      if depth - 1 = 0 then some (consumed + 1)
      else scanBal opener closer rest (depth - 1) instr' false (consumed + 1)
    else scanBal opener closer rest depth instr' false (consumed + 1)

/-- Try each occurrence of `opener` in order (Python
`text.find(opener, start+1)` loop); return the first balanced slice. -/
def findFrom (opener closer : Char) : List Char → Option (List Char)
  | [] => none
  | c :: rest =>
    if c = opener then
      match scanBal opener closer (c :: rest) 0 false false 0 with
      | some n => some ((c :: rest).take n)
      | none => findFrom opener closer rest
    else findFrom opener closer rest

/-- `_find_balanced_json`: first balanced top-level array, else first
balanced top-level object. -/
def _find_balanced_json (s : String) : Option String :=
  match findFrom '[' ']' s.data with
  | some l => some (String.mk l)
  | none =>
    match findFrom '{' '}' s.data with
    | some l => some (String.mk l)
    | none => none

/-- The object-collecting loop of `_wrap_multiple_top_objects`: find the
next `\x7b`, scan for balance, collect and continue after it; stop on the
first unbalanced attempt. -/
def wrapLoop : ℕ → List Char → List String
  | 0, _ => []
  | f + 1, cs =>
    match cs.dropWhile (fun c => c ≠ '{') with
    | [] => []
    | c :: rest =>
      match scanBal '{' '}' (c :: rest) 0 false false 0 with
      | some n => String.mk ((c :: rest).take n) :: wrapLoop f ((c :: rest).drop n)
      | none => []

/-- `_wrap_multiple_top_objects`: wrap ≥ 2 consecutive balanced top-level
objects into a synthesized array. -/
def _wrap_multiple_top_objects (s : String) : Option String :=
  let cs := pyStripL s.data
  let objs := wrapLoop (cs.length + 1) cs
  if 2 ≤ objs.length then
    some ("[" ++ String.intercalate "," objs ++ "]")
  else none

/-- `sanitize_model_json`: strip, remove fences and think tags, then the
strict fallback chain (already valid → first balanced block → wrap
concatenated objects → single-quote repair → give up). -/
def sanitize_model_json (s : String) : String :=
  let t0 := pyStrip s
  let t1 := fenceSub t0
  let t2 := thinkSub t1
  match json_loads t2 with
  | some _ => t2
  | none =>
    match _find_balanced_json t2 with
    | some cand => cand
    | none =>
      match _wrap_multiple_top_objects t2 with
      | some wrapped => wrapped
      | none =>
        match _find_balanced_json (softQuoteSub t2) with
        | some cand => cand
        | none => t2

/-! ## Schema (`app/schema.py`) and the extraction parser -/

inductive TxType where
  | credit : TxType
  | debit : TxType
deriving DecidableEq

structure Transaction where
  date : String
  description : String
  amount : ℚ
  currency : Option String
  type : TxType
deriving DecidableEq

structure PageExtraction where
  page_index : ℤ
  transactions : List Transaction
deriving DecidableEq

structure FinalReport where
  total_credits : ℚ
  total_income : ℚ
  currency_guess : Option String
  transactions : List Transaction
deriving DecidableEq

/-- Decidable equality for fallible results (component-wise). -/
instance {e a : Type} [DecidableEq e] [DecidableEq a] : DecidableEq (Except e a) := fun x y =>
  match x, y with
  | Except.ok u, Except.ok v => decidable_of_iff (u = v) (by simp)
  | Except.error u, Except.error v => decidable_of_iff (u = v) (by simp)
  | Except.ok _, Except.error _ => isFalse (by simp)
  | Except.error _, Except.ok _ => isFalse (by simp)

/-- Pydantic validation of one `Transaction` from a JSON object: `date`
and `description` must be strings, `amount` a number (no positivity
constraint in the schema), `currency` optional (string or null), `type`
exactly `credit` or `debit`; extra keys are ignored.  (Pydantic's numeric
and string coercion corner cases are not modeled; no claim depends on
them.) -/
def validateTransaction (flds : List (String × J)) : Except String Transaction :=
  match jLookup flds "date" with
  | some (J.str date) =>
    match jLookup flds "description" with
    | some (J.str desc) =>
      match jLookup flds "amount" with
      | some (J.num amount) =>
        let curr : Except String (Option String) :=
          match jLookup flds "currency" with
          | none => Except.ok none
          | some J.null => Except.ok none
          | some (J.str s) => Except.ok (some s)
          | some _ => Except.error "ValidationError: currency"
        match curr with
        | Except.error e => Except.error e
        | Except.ok c =>
          match jLookup flds "type" with
          | some (J.str ty) =>
            if ty = "credit" then Except.ok ⟨date, desc, amount, c, TxType.credit⟩
            else if ty = "debit" then Except.ok ⟨date, desc, amount, c, TxType.debit⟩
            else Except.error "ValidationError: type"
          | _ => Except.error "ValidationError: type"
      | _ => Except.error "ValidationError: amount"
    | _ => Except.error "ValidationError: description"
  | _ => Except.error "ValidationError: date"

def validateTxList : List J → Except String (List Transaction)
  | [] => Except.ok []
  | J.obj f :: rest =>
    match validateTransaction f with
    | Except.error e => Except.error e
    | Except.ok t =>
      match validateTxList rest with
      | Except.error e => Except.error e
      | Except.ok ts => Except.ok (t :: ts)
  | _ :: _ => Except.error "ValidationError: transaction item is not an object"

/-- Pydantic validation of one `PageExtraction`: `page_index` must be an
integer, `transactions` a list of transaction objects (defaulting to
empty when absent). -/
def validatePageExtraction (flds : List (String × J)) : Except String PageExtraction :=
  match jLookup flds "page_index" with
  | some (J.num q) =>
    if q.den = 1 then
      match jLookup flds "transactions" with
      | none => Except.ok ⟨q.num, []⟩
      | some (J.arr items) =>
        match validateTxList items with
        | Except.error e => Except.error e
        | Except.ok ts => Except.ok ⟨q.num, ts⟩
      | some _ => Except.error "ValidationError: transactions"
    else Except.error "ValidationError: page_index"
  | _ => Except.error "ValidationError: page_index"

/-- The per-page normalization in `parse_llm_json`: a page object with
`transactions` (a list) but no `page_index` gets the sentinel index −1. -/
def pageObjPrep (flds : List (String × J)) : List (String × J) :=
  if (jLookup flds "page_index").isNone &&
      (match jLookup flds "transactions" with
        | some (J.arr _) => true
        | _ => false) then
    objInsert flds "page_index" (J.num (-1))
  else flds

def validatePages : List J → Except String (List PageExtraction)
  | [] => Except.ok []
  | J.obj f :: rest =>
    match validatePageExtraction (pageObjPrep f) with
    | Except.error e => Except.error e
    | Except.ok p =>
      match validatePages rest with
      | Except.error e => Except.error e
      | Except.ok ps => Except.ok (p :: ps)
  | _ :: _ => Except.error "TypeError: page item is not a dict"

/-- `parse_llm_json`: sanitize, decode, normalize the accepted shapes
(bare object, list of pages, `pages`-wrapped list), validate.  A decoded
top-level string iterates characterwise in Python and errors on the first
character (so only the empty string yields an empty page list); other
non-iterable top-level values raise `TypeError`. -/
def parse_llm_json (raw : String) : Except String (List PageExtraction) :=
  match json_loads (sanitize_model_json raw) with
  | none => Except.error "JSONDecodeError: invalid JSON"
  | some (J.obj flds) =>
    match jLookup flds "pages" with
    | some (J.arr l) => validatePages l
    | _ => validatePages [J.obj flds]
  | some (J.arr l) => validatePages l
  | some (J.str st) =>
    if st = "" then Except.ok []
    else Except.error "TypeError: cannot build a page from a string"
  | some _ => Except.error "TypeError: object is not iterable"

/-! ## Aggregation and consensus (`app/logic.py`) -/

/-- Round half to even at integer precision (Python `round` on the exact
rational value). -/
def roundHalfEven (q : ℚ) : ℤ :=
  let n := ⌊q⌋
  let f := q - n
  if f < 1 / 2 then n
  else if 1 / 2 < f then n + 1
  else if n % 2 = 0 then n else n + 1

/-- Python `round(x, 2)` modeled on exact rationals. -/
def round2 (q : ℚ) : ℚ := (roundHalfEven (q * 100) : ℚ) / 100

/-- `aggregate`: flatten transactions in page order, recompute the credit
total, take the first truthy currency; `total_income` aliases
`total_credits`. -/
def aggregate (pages : List PageExtraction) : FinalReport :=
  let txs := pages.foldl (fun acc p => acc ++ p.transactions) []
  let total_credits :=
    txs.foldl (fun acc t => if t.type = TxType.credit then acc + t.amount else acc) (0 : ℚ)
  { total_credits := round2 total_credits
    total_income := round2 total_credits
    currency_guess :=
      txs.findSome? (fun t =>
        match t.currency with
        | some s => if s = "" then none else some s
        | none => none)
    transactions := txs }

/-- Result dictionary of `compare_models`; absent keys of the Python dict
are modeled as `none`/`[]`. -/
structure ConsensusOut where
  agreement : Bool
  reason : Option String
  rangeMin : Option ℚ
  rangeMax : Option ℚ
  spread : Option ℚ
  majority_total_credits : Option ℚ
  votes : List (ℚ × ℕ)
  per_model_totals : List (String × ℚ)
deriving DecidableEq

/-- Python builtin `min` on two values (keeps the current value on
ties, as the builtin does over an iterable). -/
def pymin (a b : ℚ) : ℚ := if b < a then b else a

/-- Python builtin `max` on two values. -/
def pymax (a b : ℚ) : ℚ := if a < b then b else a

/-- One `Counter` increment: an existing key keeps its position, a new
key is appended with count 1. -/
def incrFreq : List (ℚ × ℕ) → ℚ → List (ℚ × ℕ)
  | [], v => [(v, 1)]
  | p :: rest, v => if p.1 = v then (p.1, p.2 + 1) :: rest else p :: incrFreq rest v

/-- Building the `collections.Counter`: count occurrences keeping
first-seen key order. -/
def buildFreq (vals : List ℚ) : List (ℚ × ℕ) :=
  vals.foldl incrFreq []

/-- `Counter.most_common(1)[0][0]`: maximal count, first-seen order breaks
ties (Counter iterates in first-insertion order and `nlargest` is a
stable sort). -/
def mostCommon1 (freq : List (ℚ × ℕ)) : Option ℚ :=
  (freq.foldl
    (fun best p =>
      match best with
      | none => some p
      | some b => if b.2 < p.2 then some p else some b)
    none).map (fun p => p.1)

/-- `compare_models`. -/
def compare_models (reports : List (String × FinalReport)) : ConsensusOut :=
  let totals := reports.map (fun p => (p.1, p.2.total_credits))
  match totals.map (fun p => p.2) with
  | [] =>
    { agreement := false, reason := some "no valid reports"
      rangeMin := none, rangeMax := none, spread := none
      majority_total_credits := none, votes := [], per_model_totals := [] }
  | v :: vs =>
    let lo := vs.foldl pymin v
    let hi := vs.foldl pymax v
    let freq := buildFreq ((v :: vs).map round2)
    { agreement := decide (hi - lo ≤ 1)
      reason := none
      rangeMin := some lo
      rangeMax := some hi
      spread := some (round2 (hi - lo))
      majority_total_credits := mostCommon1 freq
      votes := freq
      per_model_totals := totals }

/-! ## Chunking (`chunk_pages`) -/

/-- The chunking loop: at offset `off` with the remaining pages `ps`
(`ps = pages.drop off`), emit `\x7bi+j: pages[i+j]\x7d` for
`j < min(size, len - i)` and advance by `size`.  Fuel is the page count;
`chunk_pages` supplies enough.  (For `size = 0` Python `range` raises;
the claims only concern `size ≥ 1`.) -/
def chunkAux : ℕ → ℕ → ℕ → List String → List (List (ℕ × String))
  | 0, _, _, _ => []
  | _ + 1, _, _, [] => []
  | f + 1, size, off, p :: rest =>
    ((List.range (min size (p :: rest).length)).map
        (fun j => (off + j, (p :: rest).getD j ""))) ::
      chunkAux f size (off + size) ((p :: rest).drop size)

def chunk_pages (pages_text : List String) (chunk_size : ℕ) : List (List (ℕ × String)) :=
  if chunk_size = 0 then [] else chunkAux pages_text.length chunk_size 0 pages_text

/-! ## Fan-out (`extract_page_chunk_multi`, app/llm.py) -/

/-- Outcome of one model's `chat_ollama_model` call: the raw text, or the
exception's type name and message. -/
inductive CallOutcome where
  | success (raw : String) : CallOutcome
  | failure (excName excMsg : String) : CallOutcome

/-- The per-model entry written by `extract_page_chunk_multi`: the raw
text on success, the serialized error marker on failure. -/
def renderOutcome : CallOutcome → String
  | CallOutcome.success raw => raw
  | CallOutcome.failure n m => "\x7b\"error\":\"" ++ n ++ ": " ++ m ++ "\"\x7d"

/-- Generic dict update on an association list (assignment semantics; the
lists built here are duplicate-free). -/
def assocUpdate {α : Type} : List (String × α) → String → α → List (String × α)
  | [], k, v => [(k, v)]
  | p :: rest, k, v => if p.1 = k then (k, v) :: rest else p :: assocUpdate rest k v

def assocGet {α : Type} (l : List (String × α)) (k : String) : Option α :=
  (l.find? (fun p => p.1 = k)).map (fun p => p.2)

/-- `extract_page_chunk_multi`: `asyncio.gather(..., return_exceptions=True)`
pairs each model with its own outcome; `outcome` gives each model's
result for the fixed chunk. -/
def extract_page_chunk_multi (models : List String) (outcome : String → CallOutcome) :
    List (String × String) :=
  models.foldl (fun out m => assocUpdate out m (renderOutcome (outcome m))) []

/-! ## Final parse-and-aggregate pass of `analyze_pdf_multi` (app/main.py) -/

/-- Per-model inner loop of the final pass: accumulate parsed pages and
the (space-joined, stripped) error text over the stored raw chunks, then
either report aggregation or the `ValueError` overwrite when no page
parsed. -/
def processModel (raws : List String) : Option FinalReport × Option String :=
  let step :=
    raws.foldl
      (fun (acc : List PageExtraction × Option String) raw =>
        match parse_llm_json raw with
        | Except.ok ps => (acc.1 ++ ps, acc.2)
        | Except.error e => (acc.1, some (pyStrip ((acc.2.getD "") ++ " " ++ e))))
      ([], none)
  if step.1.isEmpty then (none, some "ValueError: No parsable JSON from model.")
  else (some (aggregate step.1), step.2)

/-- One iteration of the final pass: write the model's report and/or its
error text into the two dicts.  (The `(none, none)` arm is unreachable:
`processModel` always produces at least one of the two.) -/
def finalPassStep (raws : String → List String)
    (acc : List (String × FinalReport) × List (String × String)) (m : String) :
    List (String × FinalReport) × List (String × String) :=
  match processModel (raws m) with
  | (some rep, some err) => (assocUpdate acc.1 m rep, assocUpdate acc.2 m err)
  | (some rep, none) => (assocUpdate acc.1 m rep, acc.2)
  | (none, some err) => (acc.1, assocUpdate acc.2 m err)
  | (none, none) => acc

/-- The final pass over all configured models, producing the
`by_model_report` and `errors` dicts. -/
def finalPass (models : List String) (raws : String → List String) :
    List (String × FinalReport) × List (String × String) :=
  models.foldl (finalPassStep raws) ([], [])

/-! ## Progress store (`PROGRESS`, `_bump_progress`, app/main.py) -/

structure JobProgress where
  chunks_total : ℕ
  chunks_done : ℕ
  models : List String
  last_step : String
  per_model_ms : List (String × ℚ)
  history : List String
  error : Option String
  started_at : ℚ
  finished_at : Option ℚ
deriving DecidableEq

/-- The `per_model_durations` accumulation:
`p["per_model_ms"][m] = p["per_model_ms"].get(m, 0.0) + ms`. -/
def applyDurations (pm : List (String × ℚ)) (durs : List (String × ℚ)) : List (String × ℚ) :=
  durs.foldl (fun acc d => assocUpdate acc d.1 ((assocGet acc d.1).getD 0 + d.2)) pm

/-- `_bump_progress`: look up the job id (`PROGRESS.get`), return the
store unchanged when absent; otherwise append the step (if truthy) and
accumulate durations (if truthy).  `durs = []` models both `None` and an
empty dict, which are equally falsy. -/
def _bump_progress (store : List (String × JobProgress)) (job_id : String)
    (step : String) (durs : List (String × ℚ)) : List (String × JobProgress) :=
  match assocGet store job_id with
  | none => store
  | some p =>
    let p1 := if step = "" then p else
      { p with history := p.history ++ [step], last_step := step }
    let p2 := if durs.isEmpty then p1 else
      { p1 with per_model_ms := applyDurations p1.per_model_ms durs }
    assocUpdate store job_id p2

/-! ## Auxiliary notions for the sanitizer round-trip analysis -/

/-- Characters that can start a JSON value in the scanner. -/
def valueStart (c : Char) : Bool :=
  c = '{' || c = '[' || c = '"' || c = 't' || c = 'f' || c = 'n' || c = '-' || isDigitB c

/-- Expected first character of the input for each scanner mode. -/
def modeHeadOk : PMode → Char → Prop
  | PMode.value, c => valueStart c = true
  | PMode.items _, c => valueStart c = true
  | PMode.members _, c => c = '"'

/-- `new` is `orig` with an all-whitespace suffix removed. -/
def tailOk (orig new : List Char) : Prop :=
  ∃ T, orig = new ++ T ∧ ∀ ch ∈ T, jsonWsB ch = true

/-! ## Specification-side auxiliary definitions

These are used only to *state* claims independently of the code-side
folds above. -/

/-- Number of occurrences of `v` in `vals`. -/
def countOcc (vals : List ℚ) (v : ℚ) : ℕ := (vals.filter (fun x => x = v)).length

/-- Index of the first occurrence of `v` in `vals` (length if absent). -/
def firstIdx : List ℚ → ℚ → ℕ
  | [], _ => 0
  | x :: rest, v => if x = v then 0 else firstIdx rest v + 1

/-- The distinct values of `vals` in order of first occurrence. -/
def firstOccs (vals : List ℚ) : List ℚ :=
  vals.foldl (fun acc v => if v ∈ acc then acc else acc ++ [v]) []

/-! ## Association-list lemmas -/

theorem assocGet_cons {α : Type} (p : String × α) (rest : List (String × α)) (m : String) :
    assocGet (p :: rest) m = if p.1 = m then some p.2 else assocGet rest m := by
  by_cases h : p.1 = m
  · simp [assocGet, List.find?, h]
  · simp [assocGet, List.find?, h]

theorem assocGet_update_self {α : Type} (l : List (String × α)) (k : String) (v : α) :
    assocGet (assocUpdate l k v) k = some v := by
  induction l with
  | nil => simp [assocUpdate, assocGet_cons]
  | cons p rest ih =>
    by_cases h : p.1 = k
    · simp [assocUpdate, h, assocGet_cons]
    · simp [assocUpdate, h, assocGet_cons, ih]

theorem assocGet_update_other {α : Type} (l : List (String × α)) (k m : String) (v : α)
    (h : m ≠ k) : assocGet (assocUpdate l k v) m = assocGet l m := by
  induction l with
  | nil => simp [assocUpdate, assocGet_cons, assocGet, Ne.symm h]
  | cons p rest ih =>
    by_cases hk : p.1 = k
    · simp [assocUpdate, hk, assocGet_cons, Ne.symm h]
    · simp [assocUpdate, hk, assocGet_cons, ih]

theorem assocGet_isSome_update {α : Type} (l : List (String × α)) (k m : String) (v : α)
    (h : (assocGet l m).isSome) : (assocGet (assocUpdate l k v) m).isSome := by
  by_cases hm : m = k
  · subst hm; simp [assocGet_update_self]
  · rwa [assocGet_update_other l k m v hm]

/-! ## Claim C10: bumping progress for an unknown job id -/

/-- Claim C10: for every job id not present in the progress store,
`_bump_progress` (with any step string and any duration mapping) leaves
the store completely unchanged (hence creates no entry and raises no
error). -/
theorem bump_progress_unknown_id_noop (store : List (String × JobProgress))
    (job_id step : String) (durs : List (String × ℚ))
    (h : assocGet store job_id = none) :
    _bump_progress store job_id step durs = store := by
  unfold _bump_progress
  rw [h]

/-- Witness for C10 at a concrete store and an absent job id. -/
theorem bump_progress_unknown_id_noop_witness :
    assocGet [("job-1", (⟨3, 0, ["m"], "started", [("m", 0)], [], none, 0, none⟩ : JobProgress))]
        "job-2" = none ∧
      _bump_progress [("job-1", (⟨3, 0, ["m"], "started", [("m", 0)], [], none, 0, none⟩ : JobProgress))]
        "job-2" "step" [("m", 5)] =
      [("job-1", (⟨3, 0, ["m"], "started", [("m", 0)], [], none, 0, none⟩ : JobProgress))] :=
  ⟨by decide,
    bump_progress_unknown_id_noop _ "job-2" "step" [("m", 5)] (by decide)⟩

/-! ## Claim C9: partial-failure isolation of the fan-out -/

theorem foldl_assocUpdate_get {α : Type} (models : List String) (g : String → α)
    (init : List (String × α)) (m : String) :
    assocGet (models.foldl (fun out x => assocUpdate out x (g x)) init) m =
      if m ∈ models then some (g m) else assocGet init m := by
  induction models generalizing init with
  | nil => simp
  | cons x rest ih =>
    simp only [List.foldl_cons]
    rw [ih]
    by_cases hm : m ∈ rest
    · simp [hm]
    · by_cases hx : m = x
      · subst hx
        simp [hm, assocGet_update_self]
      · simp [hm, hx, assocGet_update_other _ _ _ _ hx]

/-- Claim C9: for every model list and every per-model call outcome, the
mapping returned by `extract_page_chunk_multi` holds, for each configured
model, exactly that model's raw text on success or its serialized error
marker on failure, and holds nothing for unconfigured models; each entry
depends only on its own model's outcome, so one model's failure never
removes or alters another model's entry. -/
theorem extract_page_chunk_multi_isolated (models : List String)
    (outcome : String → CallOutcome) :
    (∀ m, m ∈ models →
        assocGet (extract_page_chunk_multi models outcome) m =
          some (renderOutcome (outcome m))) ∧
      (∀ m, m ∉ models → assocGet (extract_page_chunk_multi models outcome) m = none) := by
  constructor
  · intro m hm
    unfold extract_page_chunk_multi
    rw [foldl_assocUpdate_get]
    simp [hm]
  · intro m hm
    unfold extract_page_chunk_multi
    rw [foldl_assocUpdate_get]
    simp [hm, assocGet]

/-- Witness for C9: two models, one failing, each keeps its own entry. -/
theorem extract_page_chunk_multi_isolated_witness :
    assocGet
        (extract_page_chunk_multi ["A", "B"]
          (fun m => if m = "A" then CallOutcome.success "[]"
            else CallOutcome.failure "HTTPError" "boom")) "A" = some "[]" ∧
      assocGet
        (extract_page_chunk_multi ["A", "B"]
          (fun m => if m = "A" then CallOutcome.success "[]"
            else CallOutcome.failure "HTTPError" "boom")) "B" =
        some "\x7b\"error\":\"HTTPError: boom\"\x7d" := by
  have h := extract_page_chunk_multi_isolated ["A", "B"]
    (fun m => if m = "A" then CallOutcome.success "[]"
      else CallOutcome.failure "HTTPError" "boom")
  exact ⟨by simpa using h.1 "A" (by simp), by simpa [renderOutcome] using h.1 "B" (by simp)⟩

/-! ## Claim C5: `chunk_pages` partitions the pages exactly -/

theorem chunkAux_indices (f : ℕ) (size : ℕ) (hs : 1 ≤ size) :
    ∀ (off : ℕ) (ps : List String), ps.length ≤ f →
      ((chunkAux f size off ps).map (fun c => c.map Prod.fst)).flatten =
        (List.range ps.length).map (off + ·) := by
  induction f with
  | zero =>
    intro off ps hf
    have : ps = [] := List.length_eq_zero.mp (Nat.le_zero.mp hf)
    subst this
    simp [chunkAux]
  | succ f ih =>
    intro off ps hf
    cases ps with
    | nil => simp [chunkAux]
    | cons p rest =>
      have hlen : ((p :: rest).drop size).length ≤ f := by
        simp only [List.length_drop]
        omega
      simp only [chunkAux, List.map_cons, List.flatten_cons, ih (off + size) _ hlen,
        List.map_map]
      rcases Nat.le_total size (p :: rest).length with hle | hle
      · rw [Nat.min_eq_left hle, List.length_drop]
        have hsplit : (p :: rest).length = size + ((p :: rest).length - size) :=
          (Nat.add_sub_cancel' hle).symm
        conv_rhs => rw [hsplit]
        rw [List.range_add, List.map_append, List.map_map]
        simp [Function.comp, Nat.add_assoc]
      · rw [Nat.min_eq_right hle, List.length_drop, Nat.sub_eq_zero_of_le hle]
        simp [Function.comp, chunkAux]

theorem chunkAux_chunk_len (f : ℕ) (size : ℕ) :
    ∀ (off : ℕ) (ps : List String) (c : List (ℕ × String)),
      c ∈ chunkAux f size off ps → c.length ≤ size := by
  induction f with
  | zero => intro off ps c hc; simp [chunkAux] at hc
  | succ f ih =>
    intro off ps c hc
    cases ps with
    | nil => simp [chunkAux] at hc
    | cons p rest =>
      simp only [chunkAux, List.mem_cons] at hc
      rcases hc with hc | hc
      · subst hc
        simp [Nat.min_le_left]
      · exact ih _ _ _ hc

theorem chunkAux_values (f : ℕ) (size : ℕ) (orig : List String) :
    ∀ (off : ℕ) (ps : List String), ps = orig.drop off →
      ∀ c ∈ chunkAux f size off ps, ∀ kv ∈ c, orig[kv.1]? = some kv.2 := by
  induction f with
  | zero => intro off ps hps c hc; simp [chunkAux] at hc
  | succ f ih =>
    intro off ps hps c hc kv hkv
    cases ps with
    | nil => simp [chunkAux] at hc
    | cons p rest =>
      simp only [chunkAux, List.mem_cons] at hc
      rcases hc with hc | hc
      · subst hc
        simp only [List.mem_map, List.mem_range] at hkv
        obtain ⟨j, hj, hkv⟩ := hkv
        subst hkv
        have hjlen : j < (p :: rest).length := lt_of_lt_of_le hj (Nat.min_le_right _ _)
        have hget : (p :: rest)[j]? = some ((p :: rest).getD j "") := by
          rw [List.getD_eq_getElem?_getD, List.getElem?_eq_getElem hjlen]
          simp
        rw [← hget, hps, List.getElem?_drop]
      · have hdrop : (p :: rest).drop size = orig.drop (off + size) := by
          rw [hps, List.drop_drop, Nat.add_comm]
        exact ih (off + size) _ hdrop c hc kv hkv

/-- Claim C5: for every page-text list and every chunk size ≥ 1, the
chunks of `chunk_pages` partition the pages exactly: the concatenation of
all chunks' page indices is `0,…,n−1` in order (no duplicates, no
omissions), every chunk has at most `chunk_size` entries, and every entry
maps a page index to the page text at that original position. -/
theorem chunk_pages_partitions (pages : List String) (size : ℕ) (hs : 1 ≤ size) :
    ((chunk_pages pages size).map (fun c => c.map Prod.fst)).flatten =
        List.range pages.length ∧
      (∀ c ∈ chunk_pages pages size, c.length ≤ size) ∧
      (∀ c ∈ chunk_pages pages size, ∀ kv ∈ c, pages[kv.1]? = some kv.2) := by
  have hnz : size ≠ 0 := by omega
  unfold chunk_pages
  rw [if_neg hnz]
  refine ⟨?_, ?_, ?_⟩
  · simpa using chunkAux_indices pages.length size hs 0 pages le_rfl
  · exact fun c hc => chunkAux_chunk_len _ _ _ _ c hc
  · exact chunkAux_values pages.length size pages 0 pages (by simp)

/-- Witness for C5 at three pages and chunk size 2. -/
theorem chunk_pages_partitions_witness :
    (1 ≤ 2 ∧
        ((chunk_pages ["pa", "pb", "pc"] 2).map (fun c => c.map Prod.fst)).flatten =
          List.range 3) ∧
      (∀ c ∈ chunk_pages ["pa", "pb", "pc"] 2, c.length ≤ 2) ∧
      (∀ c ∈ chunk_pages ["pa", "pb", "pc"] 2, ∀ kv ∈ c,
        ["pa", "pb", "pc"][kv.1]? = some kv.2) := by
  have h := chunk_pages_partitions ["pa", "pb", "pc"] 2 (by decide)
  exact ⟨⟨by decide, by simpa using h.1⟩, h.2.1, h.2.2⟩

/-! ## Claim C2: the spec's consensus-agreement example -/

/-- Counterexample to C2: on the per-model totals
`A = 1000.00, B = 1000.50, C = 999.80` the code does not report
spread 1.2 with agreement false (the actual spread `max − min` is
`1000.50 − 999.80 = 0.7 ≤ 1.0`, so agreement holds). -/
theorem compare_models_example_claim_false :
    ¬((compare_models
          [("A", ⟨1000, 1000, none, []⟩), ("B", ⟨1000.5, 1000.5, none, []⟩),
            ("C", ⟨999.8, 999.8, none, []⟩)]).spread = some (1.2 : ℚ) ∧
        (compare_models
          [("A", ⟨1000, 1000, none, []⟩), ("B", ⟨1000.5, 1000.5, none, []⟩),
            ("C", ⟨999.8, 999.8, none, []⟩)]).agreement = false) := by
  with_unfolding_all decide

set_option maxRecDepth 8192 in
/-- Claim C2 as amended: for `\x7bA:1000.00, B:1000.50, C:999.80\x7d`
`compare_models` reports spread = 0.7 and agreement = true; and for
`\x7bA:1000.00, B:1000.40\x7d` it reports spread = 0.4, agreement = true,
and majority equal to the first-seen total 1000.00. -/
theorem compare_models_example_amended :
    (compare_models
        [("A", ⟨1000, 1000, none, []⟩), ("B", ⟨1000.5, 1000.5, none, []⟩),
          ("C", ⟨999.8, 999.8, none, []⟩)]).spread = some (0.7 : ℚ) ∧
      (compare_models
        [("A", ⟨1000, 1000, none, []⟩), ("B", ⟨1000.5, 1000.5, none, []⟩),
          ("C", ⟨999.8, 999.8, none, []⟩)]).agreement = true ∧
      (compare_models
        [("A", ⟨1000, 1000, none, []⟩), ("B", ⟨1000.4, 1000.4, none, []⟩)]).spread =
        some (0.4 : ℚ) ∧
      (compare_models
        [("A", ⟨1000, 1000, none, []⟩), ("B", ⟨1000.4, 1000.4, none, []⟩)]).agreement = true ∧
      (compare_models
        [("A", ⟨1000, 1000, none, []⟩),
          ("B", ⟨1000.4, 1000.4, none, []⟩)]).majority_total_credits = some (1000 : ℚ) := by
  with_unfolding_all decide

/-! ## Claim C1: sanitizing two concatenated top-level objects -/

set_option maxRecDepth 8192 in
/-- Claim C1 evaluated on the code: `sanitize_model_json` on
`'\x7b"a":1\x7d\x7b"b":2\x7d'` returns the first balanced object
`'\x7b"a":1\x7d'`, not the synthesized array — the balanced-block scan
precedes the wrapper, which itself would produce the claimed
`'[\x7b"a":1\x7d,\x7b"b":2\x7d]'` (and is unreachable whenever it could
apply). -/
theorem sanitize_concatenated_objects_eval :
    sanitize_model_json "\x7b\"a\":1\x7d\x7b\"b\":2\x7d" = "\x7b\"a\":1\x7d" ∧
      _wrap_multiple_top_objects "\x7b\"a\":1\x7d\x7b\"b\":2\x7d" =
        some "[\x7b\"a\":1\x7d,\x7b\"b\":2\x7d]" := by
  with_unfolding_all decide

/-! ## Claim C3: the schema does not constrain the sign of `amount` -/

set_option maxRecDepth 16384 in
/-- Counterexample to C3: a transaction object with the non-positive
amount −5 is accepted by `parse_llm_json` (the `Transaction` schema
declares `amount: float` with no positivity constraint). -/
theorem parse_llm_json_accepts_nonpositive_amount :
    parse_llm_json
        "[\x7b\"page_index\":0,\"transactions\":[\x7b\"date\":\"2024-01-01\",\"description\":\"x\",\"amount\":-5,\"type\":\"credit\"\x7d]\x7d]" =
      Except.ok [⟨0, [⟨"2024-01-01", "x", -5, none, TxType.credit⟩]⟩] ∧
      ¬(0 < (-5 : ℚ)) := by
  exact ⟨by with_unfolding_all decide, by norm_num⟩

/-- Claim C3 as amended: schema validation requires `amount` to be
numeric and `type` to be `credit`/`debit`, but accepts every rational
amount, positive or not; positivity is only a prompt-side contract. -/
theorem validateTransaction_amount_unconstrained (a : ℚ) :
    validateTransaction
        [("date", J.str "d"), ("description", J.str "x"), ("amount", J.num a),
          ("type", J.str "credit")] =
      Except.ok ⟨"d", "x", a, none, TxType.credit⟩ :=
  rfl

/-! ## Claim C4: report/error mappings of the final pass -/

theorem processModel_entry (raws : List String) :
    (processModel raws).1.isSome ∨ (processModel raws).2.isSome := by
  unfold processModel
  by_cases h :
    (raws.foldl
        (fun (acc : List PageExtraction × Option String) raw =>
          match parse_llm_json raw with
          | Except.ok ps => (acc.1 ++ ps, acc.2)
          | Except.error e => (acc.1, some (pyStrip ((acc.2.getD "") ++ " " ++ e))))
        ([], none)).1.isEmpty
  · simp [h]
  · simp [h]

theorem finalPass_fold_inv (raws : String → List String) (m : String) :
    ∀ (models : List String) (acc : List (String × FinalReport) × List (String × String)),
      (m ∈ models ∨ (assocGet acc.1 m).isSome ∨ (assocGet acc.2 m).isSome) →
      ((assocGet (models.foldl (finalPassStep raws) acc).1 m).isSome ∨
        (assocGet (models.foldl (finalPassStep raws) acc).2 m).isSome) := by
  intro models
  induction models with
  | nil =>
    intro acc h
    simpa using h.resolve_left (by simp)
  | cons x rest ih =>
    intro acc h
    simp only [List.foldl_cons]
    apply ih
    by_cases hm : m ∈ rest
    · exact Or.inl hm
    · refine Or.inr ?_
      rcases h with h | h
      · have hx : m = x := by
          rcases List.mem_cons.mp h with h' | h'
          · exact h'
          · exact absurd h' hm
        subst hx
        have hpe := processModel_entry (raws m)
        unfold finalPassStep
        rcases hp1 : (processModel (raws m)).1 with _ | rep <;>
          rcases hp2 : (processModel (raws m)).2 with _ | err
        · rw [hp1, hp2] at hpe
          simp at hpe
        · have : processModel (raws m) = (none, some err) := by
            rw [← hp1, ← hp2]
          rw [this]
          simp [assocGet_update_self]
        · have : processModel (raws m) = (some rep, none) := by
            rw [← hp1, ← hp2]
          rw [this]
          simp [assocGet_update_self]
        · have : processModel (raws m) = (some rep, some err) := by
            rw [← hp1, ← hp2]
          rw [this]
          simp [assocGet_update_self]
      · unfold finalPassStep
        rcases processModel (raws x) with ⟨o1, o2⟩
        rcases h with h | h
        · rcases o1 with _ | rep <;> rcases o2 with _ | err <;>
            simp [assocGet_isSome_update _ x m _ h, h]
        · rcases o1 with _ | rep <;> rcases o2 with _ | err <;>
            simp [assocGet_isSome_update _ x m _ h, h]

/-- Claim C4 as amended: the two mappings are jointly exhaustive — after
the final pass every configured model has an entry in the per-model
report mapping or in the per-model error mapping (never neither).  They
are not mutually exclusive (see the counterexample). -/
theorem finalPass_exhaustive (models : List String) (raws : String → List String)
    (m : String) (hm : m ∈ models) :
    (assocGet (finalPass models raws).1 m).isSome ∨
      (assocGet (finalPass models raws).2 m).isSome :=
  finalPass_fold_inv raws m models ([], []) (Or.inl hm)

/-- Witness for the amended C4 at a concrete model list. -/
theorem finalPass_exhaustive_witness :
    ("B" ∈ ["A", "B"]) ∧
      ((assocGet (finalPass ["A", "B"] (fun _ => ["[]"])).1 "B").isSome ∨
        (assocGet (finalPass ["A", "B"] (fun _ => ["[]"])).2 "B").isSome) :=
  ⟨by simp, finalPass_exhaustive ["A", "B"] (fun _ => ["[]"]) "B" (by simp)⟩

set_option maxRecDepth 8192 in
/-- Counterexample to C4 as stated: a model whose first chunk is
unparsable while its second chunk parses ends up in *both* mappings —
the inner loop records the parse failure in `errors[m]` and the report
is still built from the parsable pages. -/
theorem finalPass_model_in_both_maps :
    (assocGet
        (finalPass ["A"]
          (fun _ => ["x", "[\x7b\"page_index\":0,\"transactions\":[]\x7d]"])).1 "A").isSome =
        true ∧
      (assocGet
        (finalPass ["A"]
          (fun _ => ["x", "[\x7b\"page_index\":0,\"transactions\":[]\x7d]"])).2 "A").isSome =
        true := by
  with_unfolding_all decide

/-! ## Claim C6: the aggregator -/

theorem foldl_append_eq_flatten (pages : List PageExtraction) (init : List Transaction) :
    pages.foldl (fun acc p => acc ++ p.transactions) init =
      init ++ (pages.map (fun p => p.transactions)).flatten := by
  induction pages generalizing init with
  | nil => simp
  | cons x rest ih => simp [ih]

theorem foldl_credit_sum (txs : List Transaction) (init : ℚ) :
    txs.foldl (fun acc t => if t.type = TxType.credit then acc + t.amount else acc) init =
      init + ((txs.filter (fun t => t.type = TxType.credit)).map (fun t => t.amount)).sum := by
  induction txs generalizing init with
  | nil => simp
  | cons t rest ih =>
    by_cases h : t.type = TxType.credit
    · simp [List.foldl_cons, h, ih, add_assoc]
    · simp [List.foldl_cons, h, ih]

theorem findSome?_currency (txs : List Transaction) :
    txs.findSome? (fun t =>
        match t.currency with
        | some s => if s = "" then none else some s
        | none => none) =
      ((txs.filterMap (fun t => t.currency)).filter (fun s => s ≠ "")).head? := by
  induction txs with
  | nil => rfl
  | cons t rest ih =>
    cases hc : t.currency with
    | none => simp [List.findSome?_cons, hc, ih]
    | some s =>
      by_cases hs : s = ""
      · subst hs
        simp [List.findSome?_cons, hc, ih]
      · simp [List.findSome?_cons, hc, hs, ih]

/-- Counterexample to C6 as stated: with a first transaction carrying the
non-null currency `""` and a second carrying `"NGN"`, the first non-null
currency in flattened order is `""`, but `aggregate` skips falsy (empty)
strings and reports `"NGN"`. -/
theorem aggregate_currency_skips_empty_string :
    (([(⟨0, [⟨"d", "a", 1, some "", TxType.credit⟩,
              ⟨"d", "b", 2, some "NGN", TxType.credit⟩]⟩ : PageExtraction)].map
            (fun p => p.transactions)).flatten.filterMap (fun t => t.currency)).head? =
        some "" ∧
      (aggregate [⟨0, [⟨"d", "a", 1, some "", TxType.credit⟩,
          ⟨"d", "b", 2, some "NGN", TxType.credit⟩]⟩]).currency_guess = some "NGN" ∧
      (some "NGN" : Option String) ≠ some "" := by
  refine ⟨by decide, by with_unfolding_all decide, by decide⟩

set_option maxRecDepth 8192 in
/-- Claim C6 as amended: for every `PageExtraction` list, `aggregate`
returns the flattening of the transactions in page order, `total_credits`
(and its alias `total_income`) equal to the 2-decimal-rounded sum of the
credit-type amounts, and `currency_guess` equal to the first non-null
*non-empty* currency in flattened order (absent if none); in particular
the credit/debit/credit example yields 158.5 for both totals, and empty
input yields zero totals and an empty transaction list. -/
theorem aggregate_characterization :
    (∀ pages : List PageExtraction,
        aggregate pages =
          { total_credits :=
              round2 ((((pages.map (fun p => p.transactions)).flatten.filter
                  (fun t => t.type = TxType.credit)).map (fun t => t.amount)).sum)
            total_income :=
              round2 ((((pages.map (fun p => p.transactions)).flatten.filter
                  (fun t => t.type = TxType.credit)).map (fun t => t.amount)).sum)
            currency_guess :=
              (((pages.map (fun p => p.transactions)).flatten.filterMap
                  (fun t => t.currency)).filter (fun s => s ≠ "")).head?
            transactions := (pages.map (fun p => p.transactions)).flatten }) ∧
      (aggregate [⟨0, [⟨"d", "a", 100, none, TxType.credit⟩,
          ⟨"d", "b", 40, none, TxType.debit⟩,
          ⟨"d", "c", 58.5, none, TxType.credit⟩]⟩]).total_credits = 158.5 ∧
      (aggregate [⟨0, [⟨"d", "a", 100, none, TxType.credit⟩,
          ⟨"d", "b", 40, none, TxType.debit⟩,
          ⟨"d", "c", 58.5, none, TxType.credit⟩]⟩]).total_income = 158.5 ∧
      aggregate [] = { total_credits := 0, total_income := 0,
                       currency_guess := none, transactions := [] } := by
  refine ⟨?_, by with_unfolding_all decide, by with_unfolding_all decide,
    by with_unfolding_all decide⟩
  intro pages
  simp only [aggregate, foldl_append_eq_flatten, List.nil_append, foldl_credit_sum,
    findSome?_currency, zero_add]

/-! ## Claim C8: `compare_models` behavior — infrastructure -/

theorem pymin_le_left (a b : ℚ) : pymin a b ≤ a := by
  unfold pymin
  split
  · exact le_of_lt (by assumption)
  · exact le_rfl

theorem pymin_le_right (a b : ℚ) : pymin a b ≤ b := by
  unfold pymin
  split
  · exact le_rfl
  · exact le_of_not_lt (by assumption)

theorem left_le_pymax (a b : ℚ) : a ≤ pymax a b := by
  unfold pymax
  split
  · exact le_of_lt (by assumption)
  · exact le_rfl

theorem right_le_pymax (a b : ℚ) : b ≤ pymax a b := by
  unfold pymax
  split
  · exact le_rfl
  · exact le_of_not_lt (by assumption)

theorem foldl_pymin_mem : ∀ (vs : List ℚ) (v : ℚ), vs.foldl pymin v ∈ v :: vs := by
  intro vs
  induction vs with
  | nil => intro v; simp
  | cons x rest ih =>
    intro v
    have h := ih (pymin v x)
    have hx : pymin v x = v ∨ pymin v x = x := by
      unfold pymin
      split
      · exact Or.inr rfl
      · exact Or.inl rfl
    rcases List.mem_cons.mp h with h | h
    · have heq : List.foldl pymin v (x :: rest) = pymin v x := by
        simp only [List.foldl_cons]
        exact h
      rw [heq]
      rcases hx with hv | hv
      · rw [hv]
        exact List.mem_cons_self _ _
      · rw [hv]
        exact List.mem_cons_of_mem _ (List.mem_cons_self _ _)
    · have hmem : List.foldl pymin v (x :: rest) ∈ rest := by
        simp only [List.foldl_cons]
        exact h
      exact List.mem_cons_of_mem _ (List.mem_cons_of_mem _ hmem)

theorem foldl_pymax_mem : ∀ (vs : List ℚ) (v : ℚ), vs.foldl pymax v ∈ v :: vs := by
  intro vs
  induction vs with
  | nil => intro v; simp
  | cons x rest ih =>
    intro v
    have h := ih (pymax v x)
    have hx : pymax v x = v ∨ pymax v x = x := by
      unfold pymax
      split
      · exact Or.inr rfl
      · exact Or.inl rfl
    rcases List.mem_cons.mp h with h | h
    · have heq : List.foldl pymax v (x :: rest) = pymax v x := by
        simp only [List.foldl_cons]
        exact h
      rw [heq]
      rcases hx with hv | hv
      · rw [hv]
        exact List.mem_cons_self _ _
      · rw [hv]
        exact List.mem_cons_of_mem _ (List.mem_cons_self _ _)
    · have hmem : List.foldl pymax v (x :: rest) ∈ rest := by
        simp only [List.foldl_cons]
        exact h
      exact List.mem_cons_of_mem _ (List.mem_cons_of_mem _ hmem)

theorem foldl_pymin_le : ∀ (vs : List ℚ) (v : ℚ), ∀ x ∈ v :: vs, vs.foldl pymin v ≤ x := by
  intro vs
  induction vs with
  | nil =>
    intro v x hx
    rcases List.mem_cons.mp hx with h | h
    · simp [h]
    · simp at h
  | cons y rest ih =>
    intro v x hx
    have hhead := ih (pymin v y) (pymin v y) (List.mem_cons_self _ _)
    rcases List.mem_cons.mp hx with h | h
    · subst h
      exact le_trans hhead (pymin_le_left _ _)
    · rcases List.mem_cons.mp h with h | h
      · subst h
        exact le_trans hhead (pymin_le_right _ _)
      · exact ih (pymin v y) x (List.mem_cons_of_mem _ h)

theorem foldl_pymax_ge : ∀ (vs : List ℚ) (v : ℚ), ∀ x ∈ v :: vs, x ≤ vs.foldl pymax v := by
  intro vs
  induction vs with
  | nil =>
    intro v x hx
    rcases List.mem_cons.mp hx with h | h
    · simp [h]
    · simp at h
  | cons y rest ih =>
    intro v x hx
    have hhead := ih (pymax v y) (pymax v y) (List.mem_cons_self _ _)
    rcases List.mem_cons.mp hx with h | h
    · subst h
      exact le_trans (left_le_pymax _ _) hhead
    · rcases List.mem_cons.mp h with h | h
      · subst h
        exact le_trans (right_le_pymax _ _) hhead
      · exact ih (pymax v y) x (List.mem_cons_of_mem _ h)

theorem pickMax_spec :
    ∀ (l : List (ℚ × ℕ)) (b p : ℚ × ℕ),
      l.foldl
          (fun best q =>
            match best with
            | none => some q
            | some c => if c.2 < q.2 then some q else some c)
          (some b) = some p →
      (∀ q ∈ l, q.2 ≤ p.2) ∧ b.2 ≤ p.2 ∧
        (p = b ∨ ∃ l1 l2, l = l1 ++ p :: l2 ∧ b.2 < p.2 ∧ ∀ q ∈ l1, q.2 < p.2) := by
  intro l
  induction l with
  | nil =>
    intro b p h
    simp only [List.foldl_nil, Option.some.injEq] at h
    subst h
    exact ⟨by simp, le_rfl, Or.inl rfl⟩
  | cons q rest ih =>
    intro b p h
    simp only [List.foldl_cons] at h
    by_cases hbq : b.2 < q.2
    · rw [if_pos hbq] at h
      obtain ⟨hall, hble, hdec⟩ := ih q p h
      refine ⟨?_, le_trans (le_of_lt hbq) hble, ?_⟩
      · intro r hr
        rcases List.mem_cons.mp hr with h' | h'
        · subst h'
          exact hble
        · exact hall r h'
      · rcases hdec with rfl | ⟨l1, l2, heq, hlt, hl1⟩
        · exact Or.inr ⟨[], rest, rfl, hbq, by simp⟩
        · refine Or.inr ⟨q :: l1, l2, by rw [heq]; rfl, lt_trans hbq hlt, ?_⟩
          intro r hr
          rcases List.mem_cons.mp hr with h' | h'
          · subst h'
            exact hlt
          · exact hl1 r h'
    · rw [if_neg hbq] at h
      obtain ⟨hall, hble, hdec⟩ := ih b p h
      have hqle : q.2 ≤ b.2 := le_of_not_lt hbq
      refine ⟨?_, hble, ?_⟩
      · intro r hr
        rcases List.mem_cons.mp hr with h' | h'
        · subst h'
          exact le_trans hqle hble
        · exact hall r h'
      · rcases hdec with rfl | ⟨l1, l2, heq, hlt, hl1⟩
        · exact Or.inl rfl
        · refine Or.inr ⟨q :: l1, l2, by rw [heq]; rfl, hlt, ?_⟩
          intro r hr
          rcases List.mem_cons.mp hr with h' | h'
          · subst h'
            exact lt_of_le_of_lt hqle hlt
          · exact hl1 r h'

theorem pickMax_isSome :
    ∀ (l : List (ℚ × ℕ)) (b : ℚ × ℕ),
      ∃ p, l.foldl
          (fun best q =>
            match best with
            | none => some q
            | some c => if c.2 < q.2 then some q else some c)
          (some b) = some p := by
  intro l
  induction l with
  | nil => intro b; exact ⟨b, rfl⟩
  | cons q rest ih =>
    intro b
    simp only [List.foldl_cons]
    by_cases hbq : b.2 < q.2
    · rw [if_pos hbq]
      exact ih q
    · rw [if_neg hbq]
      exact ih b

theorem firstOccs_step_mem :
    ∀ (xs : List ℚ) (acc : List ℚ) (v : ℚ),
      (v ∈ xs.foldl (fun acc v => if v ∈ acc then acc else acc ++ [v]) acc) ↔
        v ∈ acc ∨ v ∈ xs := by
  intro xs
  induction xs with
  | nil => intro acc v; simp
  | cons x rest ih =>
    intro acc v
    simp only [List.foldl_cons]
    by_cases hx : x ∈ acc
    · rw [if_pos hx, ih]
      constructor
      · rintro (h | h)
        · exact Or.inl h
        · exact Or.inr (List.mem_cons_of_mem _ h)
      · rintro (h | h)
        · exact Or.inl h
        · rcases List.mem_cons.mp h with rfl | h
          · exact Or.inl hx
          · exact Or.inr h
    · rw [if_neg hx, ih]
      simp only [List.mem_append, List.mem_singleton, List.mem_cons]
      tauto

theorem mem_firstOccs (xs : List ℚ) (v : ℚ) : v ∈ firstOccs xs ↔ v ∈ xs := by
  unfold firstOccs
  rw [firstOccs_step_mem]
  simp

theorem firstOccs_step_nodup :
    ∀ (xs : List ℚ) (acc : List ℚ), acc.Nodup →
      (xs.foldl (fun acc v => if v ∈ acc then acc else acc ++ [v]) acc).Nodup := by
  intro xs
  induction xs with
  | nil => intro acc h; simpa using h
  | cons x rest ih =>
    intro acc h
    simp only [List.foldl_cons]
    by_cases hx : x ∈ acc
    · rw [if_pos hx]
      exact ih acc h
    · rw [if_neg hx]
      refine ih _ ?_
      simpa [List.nodup_append, h] using hx

theorem firstOccs_nodup (xs : List ℚ) : (firstOccs xs).Nodup :=
  firstOccs_step_nodup xs [] List.nodup_nil

theorem firstOccs_append_single (xs : List ℚ) (v : ℚ) :
    firstOccs (xs ++ [v]) =
      if v ∈ firstOccs xs then firstOccs xs else firstOccs xs ++ [v] := by
  unfold firstOccs
  rw [List.foldl_append]
  rfl

theorem countOcc_append_single (xs : List ℚ) (v u : ℚ) :
    countOcc (xs ++ [v]) u = countOcc xs u + (if v = u then 1 else 0) := by
  unfold countOcc
  rw [List.filter_append]
  by_cases h : v = u
  · simp [h]
  · simp [h]

theorem countOcc_eq_zero (xs : List ℚ) (v : ℚ) (h : v ∉ xs) : countOcc xs v = 0 := by
  unfold countOcc
  rw [List.length_eq_zero]
  rw [List.filter_eq_nil_iff]
  intro a ha
  simp only [decide_eq_true_eq]
  intro heq
  exact h (heq ▸ ha)

theorem incrFreq_map_mem (F : List ℚ) (g : ℚ → ℕ) (v : ℚ) :
    F.Nodup → v ∈ F →
      incrFreq (F.map (fun u => (u, g u))) v =
        F.map (fun u => (u, if u = v then g u + 1 else g u)) := by
  induction F with
  | nil => intro _ hv; simp at hv
  | cons x rest ih =>
    intro hnd hv
    simp only [List.map_cons, incrFreq]
    by_cases hx : x = v
    · rw [if_pos hx]
      subst hx
      have hrest : ∀ u ∈ rest, (u, g u) = (u, if u = x then g u + 1 else g u) := by
        intro u hu
        have : u ≠ x := by
          intro h
          subst h
          exact (List.nodup_cons.mp hnd).1 hu
        simp [this]
      rw [List.map_congr_left hrest]
      simp
    · rw [if_neg hx]
      have hvrest : v ∈ rest := by
        rcases List.mem_cons.mp hv with h | h
        · exact absurd h.symm hx
        · exact h
      rw [ih (List.nodup_cons.mp hnd).2 hvrest]
      simp [hx]

theorem incrFreq_map_not_mem (F : List ℚ) (g : ℚ → ℕ) (v : ℚ) :
    v ∉ F →
      incrFreq (F.map (fun u => (u, g u))) v = F.map (fun u => (u, g u)) ++ [(v, 1)] := by
  induction F with
  | nil => intro _; rfl
  | cons x rest ih =>
    intro hv
    simp only [List.map_cons, incrFreq]
    have hx : x ≠ v := by
      intro h
      exact hv (h ▸ List.mem_cons_self _ _)
    rw [if_neg hx, ih (fun h => hv (List.mem_cons_of_mem _ h))]
    simp

theorem buildFreq_spec :
    ∀ xs : List ℚ, buildFreq xs = (firstOccs xs).map (fun u => (u, countOcc xs u)) := by
  intro xs
  induction xs using List.reverseRecOn with
  | nil => rfl
  | append_singleton xs v ih =>
    have hstep : buildFreq (xs ++ [v]) = incrFreq (buildFreq xs) v := by
      unfold buildFreq
      rw [List.foldl_append]
      rfl
    rw [hstep, ih, firstOccs_append_single]
    by_cases hv : v ∈ firstOccs xs
    · rw [if_pos hv]
      rw [incrFreq_map_mem _ _ _ (firstOccs_nodup xs) hv]
      apply List.map_congr_left
      intro u hu
      rw [countOcc_append_single]
      by_cases huv : u = v
      · simp [huv]
      · have : ¬(v = u) := fun h => huv h.symm
        simp [huv, this]
    · rw [if_neg hv]
      rw [incrFreq_map_not_mem _ _ _ hv, List.map_append]
      congr 1
      · apply List.map_congr_left
        intro u hu
        rw [countOcc_append_single]
        have huv : ¬(v = u) := by
          intro h
          exact hv (h ▸ hu)
        simp [huv]
      · simp only [List.map_singleton]
        rw [countOcc_append_single]
        rw [countOcc_eq_zero xs v (fun h => hv ((mem_firstOccs xs v).mpr h))]
        simp

theorem firstIdx_lt_length (xs : List ℚ) (v : ℚ) (h : v ∈ xs) :
    firstIdx xs v < xs.length := by
  induction xs with
  | nil => simp at h
  | cons x rest ih =>
    by_cases hx : x = v
    · simp [firstIdx, hx]
    · have hv : v ∈ rest := by
        rcases List.mem_cons.mp h with h' | h'
        · exact absurd h'.symm hx
        · exact h'
      simp only [firstIdx, if_neg hx, List.length_cons]
      exact Nat.succ_lt_succ (ih hv)

theorem firstIdx_append_left (xs ys : List ℚ) (v : ℚ) (h : v ∈ xs) :
    firstIdx (xs ++ ys) v = firstIdx xs v := by
  induction xs with
  | nil => simp at h
  | cons x rest ih =>
    by_cases hx : x = v
    · simp [firstIdx, hx]
    · have hv : v ∈ rest := by
        rcases List.mem_cons.mp h with h' | h'
        · exact absurd h'.symm hx
        · exact h'
      simp only [List.cons_append, firstIdx, if_neg hx, List.append_eq]
      rw [ih hv]

theorem firstIdx_append_right (xs ys : List ℚ) (v : ℚ) (h : v ∉ xs) :
    firstIdx (xs ++ ys) v = xs.length + firstIdx ys v := by
  induction xs with
  | nil => simp
  | cons x rest ih =>
    have hx : x ≠ v := by
      intro h'
      exact h (h' ▸ List.mem_cons_self _ _)
    simp only [List.cons_append, firstIdx, if_neg hx, List.length_cons, List.append_eq]
    rw [ih (fun h' => h (List.mem_cons_of_mem _ h'))]
    omega

theorem firstOccs_pairwise :
    ∀ xs : List ℚ,
      (firstOccs xs).Pairwise (fun a b => firstIdx xs a < firstIdx xs b) := by
  intro xs
  induction xs using List.reverseRecOn with
  | nil => simp [firstOccs]
  | append_singleton xs v ih =>
    rw [firstOccs_append_single]
    by_cases hv : v ∈ firstOccs xs
    · rw [if_pos hv]
      refine ih.imp_of_mem ?_
      intro a b ha hb hab
      rw [firstIdx_append_left xs [v] a ((mem_firstOccs xs a).mp ha),
        firstIdx_append_left xs [v] b ((mem_firstOccs xs b).mp hb)]
      exact hab
    · rw [if_neg hv]
      rw [List.pairwise_append]
      refine ⟨?_, by simp, ?_⟩
      · refine ih.imp_of_mem ?_
        intro a b ha hb hab
        rw [firstIdx_append_left xs [v] a ((mem_firstOccs xs a).mp ha),
          firstIdx_append_left xs [v] b ((mem_firstOccs xs b).mp hb)]
        exact hab
      · intro a ha b hb
        have hbv : b = v := List.mem_singleton.mp hb
        subst hbv
        have hva : b ∉ xs := fun h => hv ((mem_firstOccs xs b).mpr h)
        rw [firstIdx_append_left xs [b] a ((mem_firstOccs xs a).mp ha),
          firstIdx_append_right xs [b] b hva]
        have h0 : firstIdx [b] b = 0 := by simp [firstIdx]
        rw [h0, Nat.add_zero]
        exact firstIdx_lt_length xs a ((mem_firstOccs xs a).mp ha)

theorem map_eq_append_inv {α β : Type} (g : α → β) :
    ∀ (s : List β) (l : List α) (t : List β), l.map g = s ++ t →
      ∃ l1 l2, l = l1 ++ l2 ∧ l1.map g = s ∧ l2.map g = t := by
  intro s
  induction s with
  | nil =>
    intro l t h
    exact ⟨[], l, by simp, rfl, by simpa using h⟩
  | cons b s' ih =>
    intro l t h
    cases l with
    | nil => simp at h
    | cons a l' =>
      simp only [List.map_cons, List.cons_append, List.cons.injEq] at h
      obtain ⟨l1, l2, heq, hm1, hm2⟩ := ih l' t h.2
      exact ⟨a :: l1, l2, by simp [heq], by simp [h.1, hm1], hm2⟩

theorem mostCommon1_cons (x : ℚ × ℕ) (xs : List (ℚ × ℕ)) :
    mostCommon1 (x :: xs) =
      (xs.foldl
          (fun best q =>
            match best with
            | none => some q
            | some c => if c.2 < q.2 then some q else some c)
          (some x)).map (fun p => p.1) := rfl

theorem mostCommon1_buildFreq_spec (rvals : List ℚ) (hne : rvals ≠ []) :
    ∃ w, mostCommon1 (buildFreq rvals) = some w ∧ w ∈ rvals ∧
      (∀ u ∈ rvals, countOcc rvals u ≤ countOcc rvals w) ∧
      (∀ u ∈ rvals, countOcc rvals u = countOcc rvals w →
        firstIdx rvals w ≤ firstIdx rvals u) := by
  have hFne : firstOccs rvals ≠ [] := by
    cases rvals with
    | nil => exact absurd rfl hne
    | cons a tl =>
      intro h
      have ha : a ∈ firstOccs (a :: tl) :=
        (mem_firstOccs _ _).mpr (List.mem_cons_self _ _)
      rw [h] at ha
      simp at ha
  rcases hFO : firstOccs rvals with _ | ⟨f0, F'⟩
  · exact absurd hFO hFne
  · have hbf : buildFreq rvals =
        (f0, countOcc rvals f0) :: F'.map (fun u => (u, countOcc rvals u)) := by
      rw [buildFreq_spec, hFO]
      rfl
    obtain ⟨p, hp⟩ := pickMax_isSome (F'.map (fun u => (u, countOcc rvals u)))
      (f0, countOcc rvals f0)
    obtain ⟨hall, hble, hdec⟩ := pickMax_spec _ _ _ hp
    have hmc : mostCommon1 (buildFreq rvals) = some p.1 := by
      rw [hbf, mostCommon1_cons, hp]
      rfl
    have hpairw := firstOccs_pairwise rvals
    rw [hFO] at hpairw
    -- counts of every first-occurrence value are bounded by p.2
    have hcount_all : ∀ u ∈ firstOccs rvals, countOcc rvals u ≤ p.2 := by
      intro u hu
      rw [hFO] at hu
      rcases List.mem_cons.mp hu with rfl | hu
      · exact hble
      · exact hall _ (List.mem_map_of_mem _ hu)
    rcases hdec with heq | ⟨l1, l2, hsplit, hlt, hl1⟩
    · -- the winner is the very first first-occurrence value
      have hw : p.1 = f0 := by rw [heq]
      have hp2 : p.2 = countOcc rvals f0 := by rw [heq]
      refine ⟨p.1, hmc, ?_, ?_, ?_⟩
      · rw [hw]
        exact (mem_firstOccs _ _).mp (hFO ▸ List.mem_cons_self _ _)
      · intro u hu
        have := hcount_all u ((mem_firstOccs _ _).mpr hu)
        rw [hw, ← hp2]
        exact this
      · intro u hu _
        have huF : u ∈ firstOccs rvals := (mem_firstOccs _ _).mpr hu
        rw [hFO] at huF
        rcases List.mem_cons.mp huF with rfl | huF
        · rw [hw]
        · rw [hw]
          exact le_of_lt ((List.pairwise_cons.mp hpairw).1 u huF)
    · -- the winner sits in the middle of the first-occurrence list
      obtain ⟨A, B, hFsplit, hA, hB⟩ := map_eq_append_inv _ l1 F' (p :: l2) hsplit
      cases B with
      | nil => simp at hB
      | cons w0 B' =>
        simp only [List.map_cons, List.cons.injEq] at hB
        have hw : p.1 = w0 := by rw [← hB.1]
        have hp2 : p.2 = countOcc rvals w0 := by rw [← hB.1]
        have hFdecomp : firstOccs rvals = f0 :: A ++ w0 :: B' := by
          rw [hFO, hFsplit, List.cons_append]
        refine ⟨p.1, hmc, ?_, ?_, ?_⟩
        · rw [hw]
          refine (mem_firstOccs _ _).mp ?_
          rw [hFdecomp]
          exact List.mem_cons_of_mem _ (List.mem_append_right _ (List.mem_cons_self _ _))
        · intro u hu
          have := hcount_all u ((mem_firstOccs _ _).mpr hu)
          rw [hw, ← hp2]
          exact this
        · intro u hu hcnt
          have huF : u ∈ firstOccs rvals := (mem_firstOccs _ _).mpr hu
          rw [hw, ← hp2] at hcnt
          rw [hFdecomp] at huF
          rcases List.mem_cons.mp huF with rfl | huF
          · -- u = f0 : its count is strictly smaller, contradiction with the tie
            exfalso
            rw [hcnt] at hlt
            exact lt_irrefl _ hlt
          · rcases List.mem_append.mp huF with huA | huB
            · -- u among the earlier first-occurrences: strictly smaller count
              exfalso
              have : (u, countOcc rvals u) ∈ l1 := by
                rw [← hA]
                exact List.mem_map_of_mem _ huA
              have := hl1 _ this
              rw [hcnt] at this
              exact lt_irrefl _ this
            · rcases List.mem_cons.mp huB with rfl | huB'
              · rw [hw]
              · -- u occurs after the winner: use the ordering of firstOccs
                have hsub : (w0 :: B').Sublist (firstOccs rvals) := by
                  rw [hFdecomp, List.cons_append]
                  exact (List.sublist_append_right A (w0 :: B')).trans
                    (List.sublist_cons_self _ _)
                have hpw : (w0 :: B').Pairwise
                    (fun a b => firstIdx rvals a < firstIdx rvals b) :=
                  (firstOccs_pairwise rvals).sublist hsub
                rw [hw]
                exact le_of_lt ((List.pairwise_cons.mp hpw).1 u huB')

theorem compare_models_cons (r : String × FinalReport) (rest : List (String × FinalReport)) :
    compare_models (r :: rest) =
      { agreement :=
          decide ((rest.map (fun p => p.2.total_credits)).foldl pymax r.2.total_credits -
              (rest.map (fun p => p.2.total_credits)).foldl pymin r.2.total_credits ≤ 1)
        reason := none
        rangeMin := some ((rest.map (fun p => p.2.total_credits)).foldl pymin r.2.total_credits)
        rangeMax := some ((rest.map (fun p => p.2.total_credits)).foldl pymax r.2.total_credits)
        spread :=
          some (round2 ((rest.map (fun p => p.2.total_credits)).foldl pymax r.2.total_credits -
            (rest.map (fun p => p.2.total_credits)).foldl pymin r.2.total_credits))
        majority_total_credits :=
          mostCommon1 (buildFreq ((r :: rest).map (fun p => round2 p.2.total_credits)))
        votes := buildFreq ((r :: rest).map (fun p => round2 p.2.total_credits))
        per_model_totals := (r :: rest).map (fun p => (p.1, p.2.total_credits)) } := by
  simp [compare_models, List.map_map, Function.comp_def]

set_option maxHeartbeats 2000000 in
/-- Claim C8: `compare_models` on an empty report mapping returns the
"no valid reports" marker with agreement = false; on a non-empty mapping
it sets agreement = true iff max − min of the per-model `total_credits`
is ≤ 1.0, reports that spread (2-decimal-rounded), and sets the majority
total to a most frequent 2-decimal-rounded total whose first occurrence
is earliest among the tied values (first-seen insertion order, including
the all-distinct case). -/
theorem compare_models_behavior (rs : List (String × FinalReport)) :
    (rs = [] →
      compare_models rs =
        { agreement := false, reason := some "no valid reports", rangeMin := none,
          rangeMax := none, spread := none, majority_total_credits := none,
          votes := [], per_model_totals := [] }) ∧
    (rs ≠ [] →
      ∃ lo hi w,
        lo ∈ rs.map (fun p => p.2.total_credits) ∧
        hi ∈ rs.map (fun p => p.2.total_credits) ∧
        (∀ x ∈ rs.map (fun p => p.2.total_credits), lo ≤ x ∧ x ≤ hi) ∧
        ((compare_models rs).agreement = true ↔ hi - lo ≤ 1) ∧
        (compare_models rs).spread = some (round2 (hi - lo)) ∧
        (compare_models rs).majority_total_credits = some w ∧
        w ∈ rs.map (fun p => round2 p.2.total_credits) ∧
        (∀ u ∈ rs.map (fun p => round2 p.2.total_credits),
          countOcc (rs.map (fun p => round2 p.2.total_credits)) u ≤
            countOcc (rs.map (fun p => round2 p.2.total_credits)) w) ∧
        (∀ u ∈ rs.map (fun p => round2 p.2.total_credits),
          countOcc (rs.map (fun p => round2 p.2.total_credits)) u =
              countOcc (rs.map (fun p => round2 p.2.total_credits)) w →
            firstIdx (rs.map (fun p => round2 p.2.total_credits)) w ≤
              firstIdx (rs.map (fun p => round2 p.2.total_credits)) u)) := by
  constructor
  · rintro rfl
    rfl
  · intro hne
    cases rs with
    | nil => exact absurd rfl hne
    | cons r rest =>
      have hrv : (r :: rest).map (fun p => round2 p.2.total_credits) ≠ [] := by simp
      obtain ⟨w, hmc, hwmem, hwmax, hwties⟩ := mostCommon1_buildFreq_spec _ hrv
      refine ⟨(rest.map (fun p => p.2.total_credits)).foldl pymin r.2.total_credits,
        (rest.map (fun p => p.2.total_credits)).foldl pymax r.2.total_credits, w,
        ?_, ?_, ?_, ?_, ?_, ?_, ?_, ?_, ?_⟩
      · simpa using foldl_pymin_mem (rest.map (fun p => p.2.total_credits)) r.2.total_credits
      · simpa using foldl_pymax_mem (rest.map (fun p => p.2.total_credits)) r.2.total_credits
      · intro x hx
        have hx' : x ∈ r.2.total_credits :: rest.map (fun p => p.2.total_credits) := by
          simpa using hx
        exact ⟨foldl_pymin_le _ _ x hx', foldl_pymax_ge _ _ x hx'⟩
      · rw [compare_models_cons]
        simp only [decide_eq_true_eq]
      · rw [compare_models_cons]
      · rw [compare_models_cons]
        exact hmc
      · exact hwmem
      · exact hwmax
      · exact hwties

set_option maxHeartbeats 1000000 in
/-- Witness for C8, applying the theorem at an empty and at a two-model
mapping. -/
theorem compare_models_behavior_witness :
    (compare_models [] =
      { agreement := false, reason := some "no valid reports", rangeMin := none,
        rangeMax := none, spread := none, majority_total_credits := none,
        votes := [], per_model_totals := [] }) ∧
    (∃ lo hi w,
      lo ∈ [("A", (⟨3, 3, none, []⟩ : FinalReport)),
          ("B", ⟨5, 5, none, []⟩)].map (fun p => p.2.total_credits) ∧
      hi ∈ [("A", (⟨3, 3, none, []⟩ : FinalReport)),
          ("B", ⟨5, 5, none, []⟩)].map (fun p => p.2.total_credits) ∧
      (∀ x ∈ [("A", (⟨3, 3, none, []⟩ : FinalReport)),
          ("B", ⟨5, 5, none, []⟩)].map (fun p => p.2.total_credits), lo ≤ x ∧ x ≤ hi) ∧
      ((compare_models [("A", ⟨3, 3, none, []⟩),
          ("B", ⟨5, 5, none, []⟩)]).agreement = true ↔ hi - lo ≤ 1) ∧
      (compare_models [("A", ⟨3, 3, none, []⟩),
          ("B", ⟨5, 5, none, []⟩)]).spread = some (round2 (hi - lo)) ∧
      (compare_models [("A", ⟨3, 3, none, []⟩),
          ("B", ⟨5, 5, none, []⟩)]).majority_total_credits = some w ∧
      w ∈ [("A", (⟨3, 3, none, []⟩ : FinalReport)),
          ("B", ⟨5, 5, none, []⟩)].map (fun p => round2 p.2.total_credits) ∧
      (∀ u ∈ [("A", (⟨3, 3, none, []⟩ : FinalReport)),
          ("B", ⟨5, 5, none, []⟩)].map (fun p => round2 p.2.total_credits),
        countOcc ([("A", (⟨3, 3, none, []⟩ : FinalReport)),
            ("B", ⟨5, 5, none, []⟩)].map (fun p => round2 p.2.total_credits)) u ≤
          countOcc ([("A", (⟨3, 3, none, []⟩ : FinalReport)),
            ("B", ⟨5, 5, none, []⟩)].map (fun p => round2 p.2.total_credits)) w) ∧
      (∀ u ∈ [("A", (⟨3, 3, none, []⟩ : FinalReport)),
          ("B", ⟨5, 5, none, []⟩)].map (fun p => round2 p.2.total_credits),
        countOcc ([("A", (⟨3, 3, none, []⟩ : FinalReport)),
            ("B", ⟨5, 5, none, []⟩)].map (fun p => round2 p.2.total_credits)) u =
            countOcc ([("A", (⟨3, 3, none, []⟩ : FinalReport)),
              ("B", ⟨5, 5, none, []⟩)].map (fun p => round2 p.2.total_credits)) w →
          firstIdx ([("A", (⟨3, 3, none, []⟩ : FinalReport)),
              ("B", ⟨5, 5, none, []⟩)].map (fun p => round2 p.2.total_credits)) w ≤
            firstIdx ([("A", (⟨3, 3, none, []⟩ : FinalReport)),
              ("B", ⟨5, 5, none, []⟩)].map (fun p => round2 p.2.total_credits)) u)) :=
  ⟨(compare_models_behavior []).1 rfl,
    (compare_models_behavior [("A", ⟨3, 3, none, []⟩), ("B", ⟨5, 5, none, []⟩)]).2
      (by simp)⟩

/-! ## Claim C7: sanitizer round-trip — character classes and whitespace -/

theorem jsonWs_pythonWs (c : Char) (h : jsonWsB c = true) : pythonWsB c = true := by
  simp only [jsonWsB, Bool.or_eq_true, decide_eq_true_eq] at h
  simp only [pythonWsB, Bool.or_eq_true, Bool.and_eq_true, decide_eq_true_eq]
  omega

theorem jsonWs_not_digit (c : Char) (h : jsonWsB c = true) : isDigitB c = false := by
  simp only [jsonWsB, Bool.or_eq_true, decide_eq_true_eq] at h
  simp only [isDigitB, Bool.and_eq_true, decide_eq_true_eq, Bool.and_eq_false_iff,
    decide_eq_false_iff_not]
  omega

theorem pythonWs_excluded_range (c : Char) (h33 : 33 ≤ c.toNat) (h127 : c.toNat ≤ 127) :
    pythonWsB c = false := by
  cases hb : pythonWsB c with
  | false => rfl
  | true =>
    exfalso
    simp only [pythonWsB, Bool.or_eq_true, Bool.and_eq_true, decide_eq_true_eq] at hb
    omega

theorem char_toNat_eq (c d : Char) (h : c = d) : c.toNat = d.toNat := by rw [h]

theorem digit_range (c : Char) (h : isDigitB c = true) : 48 ≤ c.toNat ∧ c.toNat ≤ 57 := by
  simp only [isDigitB, Bool.and_eq_true, decide_eq_true_eq] at h
  exact h

theorem digit_not_pythonWs (c : Char) (h : isDigitB c = true) : pythonWsB c = false := by
  obtain ⟨h1, h2⟩ := digit_range c h
  exact pythonWs_excluded_range c (by omega) (by omega)

theorem digit_not_jsonWs (c : Char) (h : isDigitB c = true) : jsonWsB c = false := by
  obtain ⟨h1, h2⟩ := digit_range c h
  simp only [jsonWsB, Bool.or_eq_false_iff, decide_eq_false_iff_not]
  omega

theorem not_pythonWs_not_jsonWs (c : Char) (h : pythonWsB c = false) : jsonWsB c = false := by
  cases hj : jsonWsB c with
  | false => rfl
  | true => rw [jsonWs_pythonWs c hj] at h; exact absurd h (by simp)

theorem valueStart_not_pythonWs (c : Char) (h : valueStart c = true) : pythonWsB c = false := by
  simp only [valueStart, Bool.or_eq_true, decide_eq_true_eq] at h
  rcases h with ((((((rfl | rfl) | rfl) | rfl) | rfl) | rfl) | rfl) | hd
  · decide
  · decide
  · decide
  · decide
  · decide
  · decide
  · decide
  · exact digit_not_pythonWs c hd

theorem valueStart_ne_rbrack (c : Char) (h : valueStart c = true) : c ≠ ']' := by
  simp only [valueStart, Bool.or_eq_true, decide_eq_true_eq] at h
  rcases h with ((((((rfl | rfl) | rfl) | rfl) | rfl) | rfl) | rfl) | hd
  · decide
  · decide
  · decide
  · decide
  · decide
  · decide
  · decide
  · intro hc
    subst hc
    exact absurd hd (by decide)

theorem valueStart_ne_rbrace (c : Char) (h : valueStart c = true) : c ≠ '}' := by
  simp only [valueStart, Bool.or_eq_true, decide_eq_true_eq] at h
  rcases h with ((((((rfl | rfl) | rfl) | rfl) | rfl) | rfl) | rfl) | hd
  · decide
  · decide
  · decide
  · decide
  · decide
  · decide
  · decide
  · intro hc
    subst hc
    exact absurd hd (by decide)

theorem skipWs_ws_append (W X : List Char) (hW : ∀ c ∈ W, jsonWsB c = true) :
    skipWs (W ++ X) = skipWs X := by
  induction W with
  | nil => rfl
  | cons w W' ih =>
    simp only [List.cons_append, skipWs, List.dropWhile_cons,
      hW w (List.mem_cons_self _ _), if_true]
    exact ih (fun c hc => hW c (List.mem_cons_of_mem _ hc))

theorem skipWs_cons_not_ws (c : Char) (X : List Char) (hc : jsonWsB c = false) :
    skipWs (c :: X) = c :: X := by
  simp [skipWs, List.dropWhile_cons, hc]

theorem skipWs_decomp (cs : List Char) :
    ∃ W, cs = W ++ skipWs cs ∧ ∀ c ∈ W, jsonWsB c = true := by
  refine ⟨cs.takeWhile jsonWsB, (List.takeWhile_append_dropWhile jsonWsB cs).symm, ?_⟩
  intro c hc
  exact List.mem_takeWhile_imp hc

theorem skipWs_all_ws (cs : List Char) (h : skipWs cs = []) : ∀ c ∈ cs, jsonWsB c = true :=
  List.dropWhile_eq_nil_iff.mp h

theorem dropWhile_pws_all_append (W X : List Char) (hW : ∀ c ∈ W, pythonWsB c = true) :
    (W ++ X).dropWhile pythonWsB = X.dropWhile pythonWsB := by
  induction W with
  | nil => rfl
  | cons w W' ih =>
    simp only [List.cons_append, List.dropWhile_cons,
      hW w (List.mem_cons_self _ _), if_true]
    exact ih (fun c hc => hW c (List.mem_cons_of_mem _ hc))

theorem dropWhile_pws_cons (c : Char) (X : List Char) (hc : pythonWsB c = false) :
    (c :: X).dropWhile pythonWsB = c :: X := by
  simp [List.dropWhile_cons, hc]

theorem trimRight_ws (B T : List Char) (hT : ∀ c ∈ T, jsonWsB c = true)
    (cB : Char) (hlast : B.getLast? = some cB) (hcB : pythonWsB cB = false) :
    ((B ++ T).reverse.dropWhile pythonWsB).reverse = B := by
  rw [List.reverse_append]
  rw [dropWhile_pws_all_append T.reverse B.reverse
    (fun c hc => jsonWs_pythonWs c (hT c (List.mem_reverse.mp hc)))]
  have hhead : B.reverse.head? = some cB := by
    rw [← List.getLast?_eq_head?_reverse]
    exact hlast
  have hBrev : B.reverse.dropWhile pythonWsB = B.reverse := by
    cases hr : B.reverse with
    | nil => rfl
    | cons b B' =>
      rw [hr] at hhead
      simp only [List.head?_cons, Option.some.injEq] at hhead
      subst hhead
      exact dropWhile_pws_cons _ _ hcB
  rw [hBrev, List.reverse_reverse]

theorem strChars_consumed (cs : List Char) :
    ∀ scs rest, strChars cs = some (scs, rest) →
      ∃ B, cs = B ++ rest ∧ B.getLast? = some '"' ∧
        ∀ rest2, strChars (B ++ rest2) = some (scs, rest2) := by
  induction cs using strChars.induct with
  | case1 =>
    intro scs rest h
    simp [strChars] at h
  | case2 r =>
    intro scs rest h
    simp only [strChars, Option.some.injEq, Prod.mk.injEq] at h
    obtain ⟨hs, hr⟩ := h
    subst hs
    subst hr
    exact ⟨['"'], rfl, rfl, fun rest2 => rfl⟩
  | case3 a b c d r x y z w hw hz hy hx ih =>
    intro scs rest h
    simp only [strChars, hx, hy, hz, hw] at h
    rw [Option.map_eq_some'] at h
    obtain ⟨⟨s1, r1⟩, hrec, heq⟩ := h
    cases heq
    obtain ⟨B', hcs, hlast, hrerun⟩ := ih s1 r1 hrec
    refine ⟨'\\' :: 'u' :: a :: b :: c :: d :: B', by simp [hcs], ?_, ?_⟩
    · have hsplit : ('\\' :: 'u' :: a :: b :: c :: d :: B') =
        ['\\', 'u', a, b, c, d] ++ B' := rfl
      rw [hsplit, List.getLast?_append, hlast]
      rfl
    · intro rest2
      simp only [List.cons_append, List.append_eq, strChars, hx, hy, hz, hw,
        hrerun rest2, Option.map_some']
  | case4 a b c d r hfail =>
    intro scs rest h
    exfalso
    rcases hxa : hexVal a with _ | x
    · simp [strChars, hxa] at h
    · rcases hxb : hexVal b with _ | y
      · simp [strChars, hxa, hxb] at h
      · rcases hxc : hexVal c with _ | z
        · simp [strChars, hxa, hxb, hxc] at h
        · rcases hxd : hexVal d with _ | w
          · simp [strChars, hxa, hxb, hxc, hxd] at h
          · exact hfail x y z w hxa hxb hxc hxd
  | case5 e r hne c hdec ih =>
    intro scs rest h
    have heu : e ≠ 'u' := by
      intro he
      rw [he] at hdec
      simp [decodeEsc] at hdec
    simp only [strChars, heu, hdec, reduceCtorEq, false_implies, implies_true] at h
    rw [Option.map_eq_some'] at h
    obtain ⟨⟨s1, r1⟩, hrec, heq⟩ := h
    cases heq
    obtain ⟨B', hcs, hlast, hrerun⟩ := ih s1 r1 hrec
    refine ⟨'\\' :: e :: B', by simp [hcs], ?_, ?_⟩
    · have hsplit : ('\\' :: e :: B') = ['\\', e] ++ B' := rfl
      rw [hsplit, List.getLast?_append, hlast]
      rfl
    · intro rest2
      simp only [List.cons_append, List.append_eq, strChars, heu, hdec, hrerun rest2,
        Option.map_some', reduceCtorEq, false_implies, implies_true]
  | case6 e r hne hdec =>
    intro scs rest h
    by_cases heu : e = 'u'
    · subst heu
      rcases r with _ | ⟨a, r1⟩
      · simp [strChars, decodeEsc] at h
      · rcases r1 with _ | ⟨b, r2⟩
        · simp [strChars, decodeEsc] at h
        · rcases r2 with _ | ⟨c2, r3⟩
          · simp [strChars, decodeEsc] at h
          · rcases r3 with _ | ⟨d, r4⟩
            · simp [strChars, decodeEsc] at h
            · exact (hne a b c2 d r4 rfl rfl).elim
    · simp [strChars, heu, hdec] at h
  | case7 =>
    intro scs rest h
    simp [strChars] at h
  | case8 c r h1 h2 h3 h4 hlt =>
    intro scs rest h
    have hq : c ≠ '"' := fun hc => h1 hc
    have hb : c ≠ '\\' := by
      intro hc
      cases r with
      | nil => exact h4 hc rfl
      | cons e r1 => exact h3 e r1 hc rfl
    simp [strChars, hq, hb, hlt] at h
  | case9 c r h1 h2 h3 h4 hge ih =>
    intro scs rest h
    have hq : c ≠ '"' := fun hc => h1 hc
    have hb : c ≠ '\\' := by
      intro hc
      cases r with
      | nil => exact h4 hc rfl
      | cons e r1 => exact h3 e r1 hc rfl
    simp only [strChars, hq, hb, hge, reduceCtorEq, false_implies,
      implies_true, decide_eq_true_eq, if_false] at h
    rw [Option.map_eq_some'] at h
    obtain ⟨⟨s1, r1⟩, hrec, heq⟩ := h
    cases heq
    obtain ⟨B', hcs, hlast, hrerun⟩ := ih s1 r1 hrec
    refine ⟨c :: B', by simp [hcs], ?_, ?_⟩
    · have hsplit : (c :: B') = [c] ++ B' := rfl
      rw [hsplit, List.getLast?_append, hlast]
      rfl
    · intro rest2
      simp only [List.cons_append, List.append_eq, strChars, hq, hb, hge, hrerun rest2,
        Option.map_some', reduceCtorEq, false_implies, implies_true, decide_eq_true_eq,
        if_false]

theorem takeWhile_all_append (p : Char → Bool) (A X : List Char)
    (h : ∀ c ∈ A, p c = true) : (A ++ X).takeWhile p = A ++ X.takeWhile p := by
  induction A with
  | nil => rfl
  | cons a A' ih =>
    simp only [List.cons_append, List.takeWhile_cons, h a (List.mem_cons_self _ _), if_true]
    rw [ih (fun c hc => h c (List.mem_cons_of_mem _ hc))]

theorem dropWhile_all_append (p : Char → Bool) (A X : List Char)
    (h : ∀ c ∈ A, p c = true) : (A ++ X).dropWhile p = X.dropWhile p := by
  induction A with
  | nil => rfl
  | cons a A' ih =>
    simp only [List.cons_append, List.dropWhile_cons, h a (List.mem_cons_self _ _), if_true]
    exact ih (fun c hc => h c (List.mem_cons_of_mem _ hc))

theorem dropWhile_head_not (p : Char → Bool) (l : List Char) (c : Char) (X : List Char)
    (h : l.dropWhile p = c :: X) : p c = false := by
  induction l with
  | nil => simp at h
  | cons a l' ih =>
    rw [List.dropWhile_cons] at h
    by_cases hp : p a = true
    · rw [if_pos hp] at h
      exact ih h
    · rw [if_neg hp] at h
      cases h
      exact Bool.not_eq_true _ ▸ (by simpa using hp)

theorem mem_takeWhile_pred (p : Char → Bool) (l : List Char) :
    ∀ c ∈ l.takeWhile p, p c = true := by
  intro c hc
  exact List.mem_takeWhile_imp hc

theorem tailOk_nil_right (o : List Char) (h : tailOk o []) : ∀ c ∈ o, jsonWsB c = true := by
  obtain ⟨T, rfl, hT⟩ := h
  simpa using hT

theorem tailOk_refl (o : List Char) : tailOk o o := ⟨[], by simp, by simp⟩

theorem tailOk_digits (n : List Char) :
    ∀ o, tailOk o n →
      o.takeWhile isDigitB = n.takeWhile isDigitB ∧
        tailOk (o.dropWhile isDigitB) (n.dropWhile isDigitB) := by
  induction n with
  | nil =>
    intro o h
    obtain ⟨T, rfl, hT⟩ := h
    constructor
    · cases o with
      | nil => rfl
      | cons t T' =>
        simp [List.takeWhile_cons, jsonWs_not_digit t (hT t (List.mem_cons_self _ _))]
    · cases o with
      | nil => exact tailOk_refl _
      | cons t T' =>
        simp only [List.dropWhile_cons,
          jsonWs_not_digit t (hT t (List.mem_cons_self _ _)),
          Bool.false_eq_true, if_false, List.dropWhile_nil]
        exact ⟨t :: T', rfl, hT⟩
  | cons x n' ih =>
    intro o h
    obtain ⟨T, rfl, hT⟩ := h
    simp only [List.cons_append]
    by_cases hx : isDigitB x = true
    · obtain ⟨htw, hdw⟩ := ih (n' ++ T) ⟨T, rfl, hT⟩
      rw [List.takeWhile_cons, List.takeWhile_cons, hx]
      simp only [if_true]
      rw [List.dropWhile_cons, List.dropWhile_cons, hx]
      simp only [if_true]
      exact ⟨by rw [htw], hdw⟩
    · rw [List.takeWhile_cons, List.takeWhile_cons,
        List.dropWhile_cons, List.dropWhile_cons]
      rw [Bool.not_eq_true] at hx
      rw [hx]
      simp only [Bool.false_eq_true, if_false]
      constructor
      · simp
      · exact ⟨T, rfl, hT⟩

theorem tailOk_cons (o n : List Char) (c : Char) (h : tailOk o (c :: n)) :
    ∃ o', o = c :: o' ∧ tailOk o' n := by
  obtain ⟨T, rfl, hT⟩ := h
  refine ⟨n ++ T, rfl, ?_⟩
  exact ⟨T, rfl, hT⟩

theorem tailOk_head_agree (o n : List Char) (c : Char) (h : tailOk o n)
    (hn : n.head? = some c) : o.head? = some c := by
  obtain ⟨T, rfl, hT⟩ := h
  cases n with
  | nil => simp at hn
  | cons a n' =>
    simp only [List.head?_cons, Option.some.injEq] at hn
    subst hn
    rfl

/-! ## Tail-stability of the number lexer

The sanitizer strips whitespace around (and the scanner skips whitespace
inside) a JSON document.  These lemmas show that each lexer piece, run on
its consumed prefix followed by any `tailOk`-related remainder, produces
the same token. -/

theorem head_append_some (A B : List Char) (c : Char) (h : A.head? = some c) :
    (A ++ B).head? = some c := by
  cases A with
  | nil => simp at h
  | cons a A' => simpa using h

theorem getLast_append_some (A B : List Char) (c : Char) (h : B.getLast? = some c) :
    (A ++ B).getLast? = some c := by
  rw [List.getLast?_append, h]
  rfl

theorem tailOk_nil_left (cs2 : List Char) (h : tailOk [] cs2) : cs2 = [] := by
  obtain ⟨T, hT, _⟩ := h
  cases cs2 with
  | nil => rfl
  | cons a l => simp at hT

theorem tailOk_left_cons (c : Char) (r cs2 : List Char) (h : tailOk (c :: r) cs2) :
    cs2 = [] ∨ ∃ r2, cs2 = c :: r2 ∧ tailOk r r2 := by
  obtain ⟨T, hT, hws⟩ := h
  cases cs2 with
  | nil => exact Or.inl rfl
  | cons a l =>
    rw [List.cons_append, List.cons.injEq] at hT
    obtain ⟨rfl, hr⟩ := hT
    refine Or.inr ⟨l, rfl, ?_⟩
    exact ⟨T, hr, hws⟩

theorem tailOk_append_left (X a b : List Char) (h : tailOk a b) :
    tailOk (X ++ a) (X ++ b) := by
  obtain ⟨T, rfl, hws⟩ := h
  exact ⟨T, by rw [List.append_assoc], hws⟩

theorem takeWhile_eq_nil_dropWhile (p : Char → Bool) (l : List Char)
    (h : l.takeWhile p = []) : l.dropWhile p = l := by
  conv_rhs => rw [← List.takeWhile_append_dropWhile p l]
  rw [h, List.nil_append]

theorem dropWhile_takeWhile_nil (p : Char → Bool) (l : List Char) :
    (l.dropWhile p).takeWhile p = [] := by
  induction l with
  | nil => rfl
  | cons a l' ih =>
    rw [List.dropWhile_cons]
    by_cases hp : p a = true
    · rw [if_pos hp]
      exact ih
    · rw [if_neg hp]
      simp [List.takeWhile_cons, hp]

theorem tailOk_takeWhile_nil (rest rest2 : List Char) (h : tailOk rest rest2)
    (hr : rest.takeWhile isDigitB = []) : rest2.takeWhile isDigitB = [] := by
  have hx := (tailOk_digits rest2 rest h).1
  rw [hr] at hx
  exact hx.symm

theorem takeWhile_getLast (p : Char → Bool) (l : List Char) (h : l.takeWhile p ≠ []) :
    ∃ cL, (l.takeWhile p).getLast? = some cL ∧ p cL = true := by
  refine ⟨(l.takeWhile p).getLast h, ?_, ?_⟩
  · exact List.getLast?_eq_getLast _ h
  · exact List.mem_takeWhile_imp (List.getLast_mem h)

theorem skipWs_seg (W : List Char) (c : Char) (r : List Char)
    (hW : ∀ x ∈ W, jsonWsB x = true) (hc : jsonWsB c = false) :
    skipWs (W ++ c :: r) = c :: r := by
  rw [skipWs_ws_append W _ hW, skipWs_cons_not_ws _ _ hc]

theorem digit_ne (c : Char) (hd : isDigitB c = true) (d : Char)
    (hdn : isDigitB d = false) : c ≠ d := by
  intro h
  rw [h, hdn] at hd
  exact Bool.false_ne_true hd

theorem parseIntPart_consumed (cs ids rest : List Char)
    (h : parseIntPart cs = some (ids, rest)) :
    cs = ids ++ rest ∧ ids ≠ [] ∧ (∀ c ∈ ids, isDigitB c = true) ∧
      ∀ rest2, tailOk rest rest2 → parseIntPart (ids ++ rest2) = some (ids, rest2) := by
  cases cs with
  | nil => simp [parseIntPart] at h
  | cons c r =>
    by_cases h0 : c = '0'
    · subst h0
      have hx : parseIntPart ('0' :: r) = some (['0'], r) := by
        simp [parseIntPart]
      rw [hx, Option.some.injEq, Prod.mk.injEq] at h
      obtain ⟨rfl, rfl⟩ := h
      refine ⟨rfl, by simp, ?_, ?_⟩
      · intro x hx2
        simp only [List.mem_singleton] at hx2
        subst hx2
        decide
      · intro rest2 _
        simp [parseIntPart]
    · by_cases hd : isDigitB c = true
      · have hx : parseIntPart (c :: r) =
            some (c :: r.takeWhile isDigitB, r.dropWhile isDigitB) := by
          simp [parseIntPart, h0, hd]
        rw [hx, Option.some.injEq, Prod.mk.injEq] at h
        obtain ⟨rfl, rfl⟩ := h
        refine ⟨?_, by simp, ?_, ?_⟩
        · rw [List.cons_append, List.takeWhile_append_dropWhile]
        · intro x hx2
          rw [List.mem_cons] at hx2
          rcases hx2 with rfl | hx2
          · exact hd
          · exact List.mem_takeWhile_imp hx2
        · intro rest2 ht
          have h1 : rest2.takeWhile isDigitB = [] :=
            tailOk_takeWhile_nil _ _ ht (dropWhile_takeWhile_nil _ _)
          have h2 : (r.takeWhile isDigitB ++ rest2).takeWhile isDigitB =
              r.takeWhile isDigitB := by
            rw [takeWhile_all_append _ _ _ (mem_takeWhile_pred _ _), h1, List.append_nil]
          have h3 : (r.takeWhile isDigitB ++ rest2).dropWhile isDigitB = rest2 := by
            rw [dropWhile_all_append _ _ _ (mem_takeWhile_pred _ _),
              takeWhile_eq_nil_dropWhile _ _ h1]
          simp [parseIntPart, h0, hd, h2, h3]
      · simp [parseIntPart, h0, hd] at h

theorem parseFracPart_not_dot (c : Char) (r : List Char) (hc : c ≠ '.') :
    parseFracPart (c :: r) = ([], c :: r) := by
  simp only [parseFracPart]
  split
  · rename_i heq
    rw [List.cons.injEq] at heq
    exact absurd heq.1 hc
  · rfl

theorem parseFracPart_consumed (cs ds rest : List Char)
    (h : parseFracPart cs = (ds, rest)) :
    (ds = [] ∧ rest = cs ∧ ∀ cs2, tailOk cs cs2 → parseFracPart cs2 = ([], cs2)) ∨
    (∃ cL, cs = ('.' :: ds) ++ rest ∧ ds ≠ [] ∧ (∀ c ∈ ds, isDigitB c = true) ∧
      ds.getLast? = some cL ∧ isDigitB cL = true ∧
      ∀ rest2, tailOk rest rest2 → parseFracPart (('.' :: ds) ++ rest2) = (ds, rest2)) := by
  cases cs with
  | nil =>
    simp only [parseFracPart] at h
    rw [Prod.mk.injEq] at h
    obtain ⟨rfl, rfl⟩ := h
    refine Or.inl ⟨rfl, rfl, ?_⟩
    intro cs2 ht
    rw [tailOk_nil_left cs2 ht]
    rfl
  | cons c r =>
    by_cases hc : c = '.'
    · subst hc
      by_cases he : r.takeWhile isDigitB = []
      · have hx : parseFracPart ('.' :: r) = ([], '.' :: r) := by
          simp [parseFracPart, he]
        rw [hx, Prod.mk.injEq] at h
        obtain ⟨rfl, rfl⟩ := h
        refine Or.inl ⟨rfl, rfl, ?_⟩
        intro cs2 ht
        rcases tailOk_left_cons _ _ _ ht with rfl | ⟨r2, rfl, ht2⟩
        · rfl
        · have h1 : r2.takeWhile isDigitB = [] := tailOk_takeWhile_nil _ _ ht2 he
          simp [parseFracPart, h1]
      · have hx : parseFracPart ('.' :: r) =
            (r.takeWhile isDigitB, r.dropWhile isDigitB) := by
          simp [parseFracPart, he]
        rw [hx, Prod.mk.injEq] at h
        obtain ⟨rfl, rfl⟩ := h
        obtain ⟨cL, hL1, hL2⟩ := takeWhile_getLast isDigitB r he
        refine Or.inr ⟨cL, ?_, he, mem_takeWhile_pred _ _, hL1, hL2, ?_⟩
        · rw [List.cons_append, List.takeWhile_append_dropWhile]
        · intro rest2 ht
          have h1 : rest2.takeWhile isDigitB = [] :=
            tailOk_takeWhile_nil _ _ ht (dropWhile_takeWhile_nil _ _)
          have h2 : (r.takeWhile isDigitB ++ rest2).takeWhile isDigitB =
              r.takeWhile isDigitB := by
            rw [takeWhile_all_append _ _ _ (mem_takeWhile_pred _ _), h1, List.append_nil]
          have h3 : (r.takeWhile isDigitB ++ rest2).dropWhile isDigitB = rest2 := by
            rw [dropWhile_all_append _ _ _ (mem_takeWhile_pred _ _),
              takeWhile_eq_nil_dropWhile _ _ h1]
          have h4 : ¬ (r.takeWhile isDigitB ++ rest2).takeWhile isDigitB = [] := by
            rw [h2]
            exact he
          have hx2 : parseFracPart ('.' :: (r.takeWhile isDigitB ++ rest2)) =
              ((r.takeWhile isDigitB ++ rest2).takeWhile isDigitB,
                (r.takeWhile isDigitB ++ rest2).dropWhile isDigitB) := by
            simp [parseFracPart, h4]
          rw [List.cons_append, hx2, h2, h3]
    · rw [parseFracPart_not_dot c r hc, Prod.mk.injEq] at h
      obtain ⟨rfl, rfl⟩ := h
      refine Or.inl ⟨rfl, rfl, ?_⟩
      intro cs2 ht
      rcases tailOk_left_cons _ _ _ ht with rfl | ⟨r2, rfl, _⟩
      · rfl
      · exact parseFracPart_not_dot c r2 hc

theorem parseExpPart_not_e (c : Char) (r : List Char) (hce : ¬ (c = 'e' ∨ c = 'E')) :
    parseExpPart (c :: r) = (0, c :: r) := by
  simp only [parseExpPart]
  rw [if_neg hce]

theorem parseExpPart_e_nil (c : Char) (hce : c = 'e' ∨ c = 'E') :
    parseExpPart [c] = (0, [c]) := by
  simp only [parseExpPart]
  rw [if_pos hce]
  rfl

theorem parseExpPart_plus (c : Char) (hce : c = 'e' ∨ c = 'E') (r1 : List Char) :
    parseExpPart (c :: '+' :: r1) =
      if (r1.takeWhile isDigitB).isEmpty then (0, c :: '+' :: r1)
      else ((digitsToNat (r1.takeWhile isDigitB) : ℤ), r1.dropWhile isDigitB) := by
  simp only [parseExpPart]
  rw [if_pos hce]
  simp only [one_mul]

theorem parseExpPart_minus (c : Char) (hce : c = 'e' ∨ c = 'E') (r1 : List Char) :
    parseExpPart (c :: '-' :: r1) =
      if (r1.takeWhile isDigitB).isEmpty then (0, c :: '-' :: r1)
      else (-(digitsToNat (r1.takeWhile isDigitB) : ℤ), r1.dropWhile isDigitB) := by
  simp only [parseExpPart]
  rw [if_pos hce]
  simp only [neg_one_mul]

theorem parseExpPart_default_sgn (c d : Char) (r1 : List Char)
    (hce : c = 'e' ∨ c = 'E') (h1 : d ≠ '+') (h2 : d ≠ '-') :
    parseExpPart (c :: d :: r1) =
      if ((d :: r1).takeWhile isDigitB).isEmpty then (0, c :: d :: r1)
      else ((digitsToNat ((d :: r1).takeWhile isDigitB) : ℤ),
        (d :: r1).dropWhile isDigitB) := by
  simp only [parseExpPart]
  rw [if_pos hce]
  split
  · rename_i heq
    split at heq
    · rename_i r heq2
      rw [List.cons.injEq] at heq2
      exact absurd heq2.1 h1
    · rename_i r heq2
      rw [List.cons.injEq] at heq2
      exact absurd heq2.1 h2
    · split
      · rfl
      · rename_i heq3
        exact absurd heq heq3
  · rename_i heq
    split at heq
    · rename_i r heq2
      rw [List.cons.injEq] at heq2
      exact absurd heq2.1 h1
    · rename_i r heq2
      rw [List.cons.injEq] at heq2
      exact absurd heq2.1 h2
    · split
      · rename_i heq3
        exact absurd heq3 heq
      · simp

theorem not_isEmpty_of_ne (l : List Char) (h : l ≠ []) : ¬ l.isEmpty = true := by
  cases l with
  | nil => exact absurd rfl h
  | cons a l' => simp

theorem isEmpty_of_eq_nil (l : List Char) (h : l = []) : l.isEmpty = true := by
  rw [h]
  rfl

theorem parseExpPart_consumed (cs : List Char) (e : ℤ) (rest : List Char)
    (h : parseExpPart cs = (e, rest)) :
    (e = 0 ∧ rest = cs ∧ ∀ cs2, tailOk cs cs2 → parseExpPart cs2 = (0, cs2)) ∨
    (∃ B cL, cs = B ++ rest ∧ B ≠ [] ∧ B.getLast? = some cL ∧ isDigitB cL = true ∧
      ∀ rest2, tailOk rest rest2 → parseExpPart (B ++ rest2) = (e, rest2)) := by
  cases cs with
  | nil =>
    have hx : parseExpPart [] = ((0 : ℤ), ([] : List Char)) := rfl
    rw [hx, Prod.mk.injEq] at h
    obtain ⟨rfl, rfl⟩ := h
    refine Or.inl ⟨rfl, rfl, ?_⟩
    intro cs2 ht
    rw [tailOk_nil_left cs2 ht]
    rfl
  | cons c r =>
    by_cases hce : c = 'e' ∨ c = 'E'
    · cases r with
      | nil =>
        rw [parseExpPart_e_nil c hce, Prod.mk.injEq] at h
        obtain ⟨rfl, rfl⟩ := h
        refine Or.inl ⟨rfl, rfl, ?_⟩
        intro cs2 ht
        rcases tailOk_left_cons _ _ _ ht with rfl | ⟨r2, rfl, ht2⟩
        · rfl
        · rw [tailOk_nil_left r2 ht2]
          exact parseExpPart_e_nil c hce
      | cons d r1 =>
        by_cases hp : d = '+'
        · subst hp
          rw [parseExpPart_plus c hce r1] at h
          by_cases he : r1.takeWhile isDigitB = []
          · rw [if_pos (isEmpty_of_eq_nil _ he), Prod.mk.injEq] at h
            obtain ⟨rfl, rfl⟩ := h
            refine Or.inl ⟨rfl, rfl, ?_⟩
            intro cs2 ht
            rcases tailOk_left_cons _ _ _ ht with rfl | ⟨rr, rfl, ht2⟩
            · rfl
            · rcases tailOk_left_cons _ _ _ ht2 with rfl | ⟨r2, rfl, ht3⟩
              · exact parseExpPart_e_nil c hce
              · have h1 : r2.takeWhile isDigitB = [] := tailOk_takeWhile_nil _ _ ht3 he
                rw [parseExpPart_plus c hce r2, if_pos (isEmpty_of_eq_nil _ h1)]
          · rw [if_neg (not_isEmpty_of_ne _ he), Prod.mk.injEq] at h
            obtain ⟨rfl, rfl⟩ := h
            obtain ⟨cL, hL1, hL2⟩ := takeWhile_getLast isDigitB r1 he
            refine Or.inr ⟨c :: '+' :: r1.takeWhile isDigitB, cL, ?_, by simp, ?_, hL2, ?_⟩
            · rw [List.cons_append, List.cons_append, List.takeWhile_append_dropWhile]
            · exact getLast_append_some [c, '+'] _ cL hL1
            · intro rest2 ht
              have h1 : rest2.takeWhile isDigitB = [] :=
                tailOk_takeWhile_nil _ _ ht (dropWhile_takeWhile_nil _ _)
              have h2 : (r1.takeWhile isDigitB ++ rest2).takeWhile isDigitB =
                  r1.takeWhile isDigitB := by
                rw [takeWhile_all_append _ _ _ (mem_takeWhile_pred _ _), h1, List.append_nil]
              have h3 : (r1.takeWhile isDigitB ++ rest2).dropWhile isDigitB = rest2 := by
                rw [dropWhile_all_append _ _ _ (mem_takeWhile_pred _ _),
                  takeWhile_eq_nil_dropWhile _ _ h1]
              have hgoal := parseExpPart_plus c hce (r1.takeWhile isDigitB ++ rest2)
              rw [h2, h3] at hgoal
              rw [List.cons_append, List.cons_append, hgoal,
                if_neg (not_isEmpty_of_ne _ he)]
        · by_cases hmn : d = '-'
          · subst hmn
            rw [parseExpPart_minus c hce r1] at h
            by_cases he : r1.takeWhile isDigitB = []
            · rw [if_pos (isEmpty_of_eq_nil _ he), Prod.mk.injEq] at h
              obtain ⟨rfl, rfl⟩ := h
              refine Or.inl ⟨rfl, rfl, ?_⟩
              intro cs2 ht
              rcases tailOk_left_cons _ _ _ ht with rfl | ⟨rr, rfl, ht2⟩
              · rfl
              · rcases tailOk_left_cons _ _ _ ht2 with rfl | ⟨r2, rfl, ht3⟩
                · exact parseExpPart_e_nil c hce
                · have h1 : r2.takeWhile isDigitB = [] := tailOk_takeWhile_nil _ _ ht3 he
                  rw [parseExpPart_minus c hce r2, if_pos (isEmpty_of_eq_nil _ h1)]
            · rw [if_neg (not_isEmpty_of_ne _ he), Prod.mk.injEq] at h
              obtain ⟨rfl, rfl⟩ := h
              obtain ⟨cL, hL1, hL2⟩ := takeWhile_getLast isDigitB r1 he
              refine Or.inr ⟨c :: '-' :: r1.takeWhile isDigitB, cL, ?_, by simp, ?_, hL2, ?_⟩
              · rw [List.cons_append, List.cons_append, List.takeWhile_append_dropWhile]
              · exact getLast_append_some [c, '-'] _ cL hL1
              · intro rest2 ht
                have h1 : rest2.takeWhile isDigitB = [] :=
                  tailOk_takeWhile_nil _ _ ht (dropWhile_takeWhile_nil _ _)
                have h2 : (r1.takeWhile isDigitB ++ rest2).takeWhile isDigitB =
                    r1.takeWhile isDigitB := by
                  rw [takeWhile_all_append _ _ _ (mem_takeWhile_pred _ _), h1, List.append_nil]
                have h3 : (r1.takeWhile isDigitB ++ rest2).dropWhile isDigitB = rest2 := by
                  rw [dropWhile_all_append _ _ _ (mem_takeWhile_pred _ _),
                    takeWhile_eq_nil_dropWhile _ _ h1]
                have hgoal := parseExpPart_minus c hce (r1.takeWhile isDigitB ++ rest2)
                rw [h2, h3] at hgoal
                rw [List.cons_append, List.cons_append, hgoal,
                  if_neg (not_isEmpty_of_ne _ he)]
          · rw [parseExpPart_default_sgn c d r1 hce hp hmn] at h
            by_cases he : (d :: r1).takeWhile isDigitB = []
            · rw [if_pos (isEmpty_of_eq_nil _ he), Prod.mk.injEq] at h
              obtain ⟨rfl, rfl⟩ := h
              have hdd : isDigitB d = false := by
                by_cases hd2 : isDigitB d = true
                · rw [List.takeWhile_cons, if_pos hd2] at he
                  simp at he
                · exact Bool.not_eq_true _ ▸ (by simpa using hd2)
              refine Or.inl ⟨rfl, rfl, ?_⟩
              intro cs2 ht
              rcases tailOk_left_cons _ _ _ ht with rfl | ⟨rr, rfl, ht2⟩
              · rfl
              · rcases tailOk_left_cons _ _ _ ht2 with rfl | ⟨r2, rfl, ht3⟩
                · exact parseExpPart_e_nil c hce
                · have h1 : (d :: r2).takeWhile isDigitB = [] := by
                    rw [List.takeWhile_cons, if_neg (by simp [hdd])]
                  rw [parseExpPart_default_sgn c d r2 hce hp hmn,
                    if_pos (isEmpty_of_eq_nil _ h1)]
            · rw [if_neg (not_isEmpty_of_ne _ he), Prod.mk.injEq] at h
              obtain ⟨rfl, rfl⟩ := h
              have hdd : isDigitB d = true := by
                by_cases hd2 : isDigitB d = true
                · exact hd2
                · rw [List.takeWhile_cons, if_neg hd2] at he
                  exact absurd rfl he
              have htw : (d :: r1).takeWhile isDigitB = d :: r1.takeWhile isDigitB := by
                rw [List.takeWhile_cons, if_pos hdd]
              have hdw : (d :: r1).dropWhile isDigitB = r1.dropWhile isDigitB := by
                rw [List.dropWhile_cons, if_pos hdd]
              obtain ⟨cL, hL1, hL2⟩ := takeWhile_getLast isDigitB (d :: r1) he
              refine Or.inr ⟨c :: (d :: r1).takeWhile isDigitB, cL, ?_, by simp, ?_, hL2, ?_⟩
              · rw [List.cons_append, List.takeWhile_append_dropWhile]
              · exact getLast_append_some [c] _ cL hL1
              · intro rest2 ht
                have h1 : rest2.takeWhile isDigitB = [] :=
                  tailOk_takeWhile_nil _ _ ht (dropWhile_takeWhile_nil _ _)
                have h2 : (r1.takeWhile isDigitB ++ rest2).takeWhile isDigitB =
                    r1.takeWhile isDigitB := by
                  rw [takeWhile_all_append _ _ _ (mem_takeWhile_pred _ _), h1, List.append_nil]
                have h3 : (r1.takeWhile isDigitB ++ rest2).dropWhile isDigitB = rest2 := by
                  rw [dropWhile_all_append _ _ _ (mem_takeWhile_pred _ _),
                    takeWhile_eq_nil_dropWhile _ _ h1]
                have hgoal := parseExpPart_default_sgn c d
                  (r1.takeWhile isDigitB ++ rest2) hce hp hmn
                have htw2 : (d :: (r1.takeWhile isDigitB ++ rest2)).takeWhile isDigitB =
                    d :: r1.takeWhile isDigitB := by
                  rw [List.takeWhile_cons, if_pos hdd, h2]
                have hdw2 : (d :: (r1.takeWhile isDigitB ++ rest2)).dropWhile isDigitB =
                    rest2 := by
                  rw [List.dropWhile_cons, if_pos hdd, h3]
                rw [htw2, hdw2] at hgoal
                rw [htw, List.cons_append, List.cons_append, hgoal,
                  if_neg (not_isEmpty_of_ne _ (by simp))]
    · rw [parseExpPart_not_e c r hce, Prod.mk.injEq] at h
      obtain ⟨rfl, rfl⟩ := h
      refine Or.inl ⟨rfl, rfl, ?_⟩
      intro cs2 ht
      rcases tailOk_left_cons _ _ _ ht with rfl | ⟨r2, rfl, _⟩
      · rfl
      · exact parseExpPart_not_e c r2 hce

theorem getLast_all (p : Char → Bool) (l : List Char) (h : l ≠ [])
    (ha : ∀ c ∈ l, p c = true) : ∃ cL, l.getLast? = some cL ∧ p cL = true :=
  ⟨l.getLast h, List.getLast?_eq_getLast _ h, ha _ (List.getLast_mem h)⟩

set_option maxHeartbeats 1600000 in
theorem parseNumber_minus (cs' : List Char) :
    parseNumber ('-' :: cs') =
      match parseIntPart cs' with
      | none => none
      | some (ids, cs2) =>
        some ((-((digitsToNat ids : ℚ) +
          (digitsToNat (parseFracPart cs2).1 : ℚ) /
            ((10 : ℚ) ^ (parseFracPart cs2).1.length))) *
            (10 : ℚ) ^ (parseExpPart (parseFracPart cs2).2).1,
          (parseExpPart (parseFracPart cs2).2).2) := by
  simp only [parseNumber]
  split
  · rfl
  · simp

theorem parseNumber_not_minus (c : Char) (cs' : List Char) (hm : c ≠ '-') :
    parseNumber (c :: cs') =
      match parseIntPart (c :: cs') with
      | none => none
      | some (ids, cs2) =>
        some (((digitsToNat ids : ℚ) +
          (digitsToNat (parseFracPart cs2).1 : ℚ) /
            ((10 : ℚ) ^ (parseFracPart cs2).1.length)) *
            (10 : ℚ) ^ (parseExpPart (parseFracPart cs2).2).1,
          (parseExpPart (parseFracPart cs2).2).2) := by
  simp only [parseNumber]
  split
  · rename_i heq
    split at heq
    · rename_i r heq2
      rw [List.cons.injEq] at heq2
      exact absurd heq2.1 hm
    · rw [(heq : parseIntPart (c :: cs') = none)]
  · rename_i ids cs2 heq
    split at heq
    · rename_i r heq2
      rw [List.cons.injEq] at heq2
      exact absurd heq2.1 hm
    · rw [(heq : parseIntPart (c :: cs') = some (ids, cs2))]
      rfl

theorem parseNumberCore_consumed (u ids cs2 ds fres : List Char) (ev : ℤ)
    (erest : List Char) (hi : parseIntPart u = some (ids, cs2))
    (hf : parseFracPart cs2 = (ds, fres)) (he : parseExpPart fres = (ev, erest)) :
    ∃ C C' cL, u = C ++ erest ∧ C = ids ++ C' ∧
      C.getLast? = some cL ∧ isDigitB cL = true ∧
      ∀ rest2, tailOk erest rest2 →
        ∃ cs2' fres', parseIntPart (C ++ rest2) = some (ids, cs2') ∧
          parseFracPart cs2' = (ds, fres') ∧
          parseExpPart fres' = (ev, rest2) := by
  obtain ⟨hu, hne, hdig, hri⟩ := parseIntPart_consumed u ids cs2 hi
  rcases parseFracPart_consumed cs2 ds fres hf with
    ⟨rfl, hfc, hfr⟩ | ⟨dL, hcs2, hdne, hddig, hdL1, hdL2, hfr⟩
  · rw [hfc] at he
    rcases parseExpPart_consumed cs2 ev erest he with
      ⟨rfl, herc, her⟩ | ⟨EB, eL, hfres, hene, heL1, heL2, her⟩
    · obtain ⟨cL, hL1, hL2⟩ := getLast_all isDigitB ids hne hdig
      refine ⟨ids, [], cL, ?_, (List.append_nil ids).symm, hL1, hL2, ?_⟩
      · rw [herc]
        exact hu
      · intro rest2 ht
        rw [herc] at ht
        exact ⟨rest2, rest2, hri rest2 ht, hfr rest2 ht, her rest2 ht⟩
    · refine ⟨ids ++ EB, EB, eL, ?_, rfl, getLast_append_some ids EB eL heL1, heL2, ?_⟩
      · rw [hu, hfres, List.append_assoc]
      · intro rest2 ht
        have htc : tailOk cs2 (EB ++ rest2) := by
          rw [hfres]
          exact tailOk_append_left EB _ _ ht
        refine ⟨EB ++ rest2, EB ++ rest2, ?_, hfr (EB ++ rest2) htc, her rest2 ht⟩
        rw [List.append_assoc]
        exact hri (EB ++ rest2) htc
  · rcases parseExpPart_consumed fres ev erest he with
      ⟨rfl, herc, her⟩ | ⟨EB, eL, hfres, hene, heL1, heL2, her⟩
    · refine ⟨ids ++ ('.' :: ds), '.' :: ds, dL, ?_, rfl, ?_, hdL2, ?_⟩
      · rw [herc, hu, hcs2, List.append_assoc]
      · exact getLast_append_some ids _ dL (getLast_append_some ['.'] ds dL hdL1)
      · intro rest2 ht
        rw [herc] at ht
        have htc : tailOk cs2 (('.' :: ds) ++ rest2) := by
          rw [hcs2]
          exact tailOk_append_left _ _ _ ht
        refine ⟨('.' :: ds) ++ rest2, rest2, ?_, hfr rest2 ht, her rest2 ht⟩
        rw [List.append_assoc]
        exact hri _ htc
    · refine ⟨ids ++ (('.' :: ds) ++ EB), ('.' :: ds) ++ EB, eL, ?_, rfl, ?_, heL2, ?_⟩
      · rw [hu, hcs2, hfres, List.append_assoc, List.append_assoc]
      · exact getLast_append_some ids _ eL (getLast_append_some ('.' :: ds) EB eL heL1)
      · intro rest2 ht
        have hte : tailOk fres (EB ++ rest2) := by
          rw [hfres]
          exact tailOk_append_left EB _ _ ht
        have htc : tailOk cs2 (('.' :: ds) ++ (EB ++ rest2)) := by
          rw [hcs2]
          exact tailOk_append_left _ _ _ hte
        refine ⟨('.' :: ds) ++ (EB ++ rest2), EB ++ rest2, ?_,
          hfr (EB ++ rest2) hte, her rest2 ht⟩
        simpa [List.append_assoc] using hri _ htc

theorem parseNumber_consumed (cs : List Char) (q : ℚ) (rest : List Char)
    (h : parseNumber cs = some (q, rest)) :
    ∃ B B' cH cL, cs = B ++ rest ∧ B = cH :: B' ∧ (cH = '-' ∨ isDigitB cH = true) ∧
      B.getLast? = some cL ∧ isDigitB cL = true ∧
      ∀ rest2, tailOk rest rest2 → parseNumber (B ++ rest2) = some (q, rest2) := by
  cases cs with
  | nil =>
    have hx : parseNumber [] = none := rfl
    rw [hx] at h
    exact absurd h (by simp)
  | cons c cs' =>
    by_cases hm : c = '-'
    · subst hm
      rw [parseNumber_minus cs'] at h
      rcases hi : parseIntPart cs' with _ | ⟨ids, cs2⟩
      · rw [hi] at h
        exact absurd h (by simp)
      · rw [hi] at h
        have h2 : some ((-((digitsToNat ids : ℚ) +
            (digitsToNat (parseFracPart cs2).1 : ℚ) /
              ((10 : ℚ) ^ (parseFracPart cs2).1.length))) *
              (10 : ℚ) ^ (parseExpPart (parseFracPart cs2).2).1,
            (parseExpPart (parseFracPart cs2).2).2) = some (q, rest) := h
        rcases hfq : parseFracPart cs2 with ⟨ds, fres⟩
        rcases heq2 : parseExpPart fres with ⟨ev, erest⟩
        rw [hfq] at h2
        simp only [heq2] at h2
        rw [Option.some.injEq, Prod.mk.injEq] at h2
        obtain ⟨rfl, rfl⟩ := h2
        obtain ⟨C, C', cL, hu, hCC, hL, hLd, hrer⟩ :=
          parseNumberCore_consumed cs' ids cs2 ds fres ev erest hi hfq heq2
        refine ⟨'-' :: C, C, '-', cL, ?_, rfl, Or.inl rfl, ?_, hLd, ?_⟩
        · rw [List.cons_append, ← hu]
        · exact getLast_append_some ['-'] C cL hL
        · intro rest2 ht
          obtain ⟨cs2', fres', hpi, hpf, hpe⟩ := hrer rest2 ht
          rw [List.cons_append, parseNumber_minus (C ++ rest2), hpi]
          simp only [hpf, hpe]
    · rw [parseNumber_not_minus c cs' hm] at h
      rcases hi : parseIntPart (c :: cs') with _ | ⟨ids, cs2⟩
      · rw [hi] at h
        exact absurd h (by simp)
      · rw [hi] at h
        have h2 : some (((digitsToNat ids : ℚ) +
            (digitsToNat (parseFracPart cs2).1 : ℚ) /
              ((10 : ℚ) ^ (parseFracPart cs2).1.length)) *
              (10 : ℚ) ^ (parseExpPart (parseFracPart cs2).2).1,
            (parseExpPart (parseFracPart cs2).2).2) = some (q, rest) := h
        rcases hfq : parseFracPart cs2 with ⟨ds, fres⟩
        rcases heq2 : parseExpPart fres with ⟨ev, erest⟩
        rw [hfq] at h2
        simp only [heq2] at h2
        rw [Option.some.injEq, Prod.mk.injEq] at h2
        obtain ⟨rfl, rfl⟩ := h2
        obtain ⟨C, C', cL, hu, hCC, hL, hLd, hrer⟩ :=
          parseNumberCore_consumed (c :: cs') ids cs2 ds fres ev erest hi hfq heq2
        obtain ⟨hu2, hne, hdig, _⟩ := parseIntPart_consumed (c :: cs') ids cs2 hi
        cases ids with
        | nil => exact absurd rfl hne
        | cons i0 ids' =>
          have hCeq : C = i0 :: (ids' ++ C') := by
            rw [hCC, List.cons_append]
          have hd0 : isDigitB i0 = true := hdig i0 (List.mem_cons_self _ _)
          refine ⟨C, ids' ++ C', i0, cL, hu, hCeq, Or.inr hd0, hL, hLd, ?_⟩
          intro rest2 ht
          obtain ⟨cs2', fres', hpi, hpf, hpe⟩ := hrer rest2 ht
          rw [hCeq, List.cons_append,
            parseNumber_not_minus i0 (ids' ++ C' ++ rest2)
              (digit_ne i0 hd0 '-' (by decide)),
            ← List.cons_append, ← hCeq, hpi]
          simp only [hpf, hpe]

set_option maxHeartbeats 1600000 in
theorem parseV_consumed :
    ∀ f mode cs v rest, parseV f mode cs = some (v, rest) →
      ∃ B cH cL B', cs = B ++ rest ∧ B = cH :: B' ∧ modeHeadOk mode cH ∧
        B.getLast? = some cL ∧ pythonWsB cL = false ∧
        ∀ rest2, tailOk rest rest2 → ∀ f2, B.length < f2 →
          parseV f2 mode (B ++ rest2) = some (v, rest2) := by
  intro f
  induction f with
  | zero =>
    intro mode cs v rest h
    simp [parseV] at h
  | succ f ih =>
    intro mode cs v rest h
    cases mode with
    | value =>
      simp only [parseV] at h
      split at h
      · rename_i rest0
        split at h
        · rename_i r2 heq2
          rw [Option.some.injEq, Prod.mk.injEq] at h
          obtain ⟨rfl, rfl⟩ := h
          obtain ⟨W, hW1, hW2⟩ := skipWs_decomp rest0
          rw [heq2] at hW1
          refine ⟨'{' :: (W ++ ['}']), '{', '}', W ++ ['}'], ?_, rfl, rfl, ?_,
            by decide, ?_⟩
          · rw [hW1]
            simp [List.append_assoc]
          · exact getLast_append_some ('{' :: W) ['}'] '}' rfl
          · intro rest2 ht f2 hf2
            cases f2 with
            | zero => exact absurd hf2 (Nat.not_lt_zero _)
            | succ f2' =>
              have e1 : skipWs (W ++ ('}' :: rest2)) = '}' :: rest2 :=
                skipWs_seg W '}' rest2 hW2 (by decide)
              simp only [List.cons_append, List.append_assoc, List.nil_append,
                List.singleton_append, parseV, e1]
        · obtain ⟨Bm, cHm, cLm, Bm', hcs1, hBm, hmode, hlastm, hlastmws, hrerm⟩ :=
            ih (PMode.members []) (skipWs rest0) v rest h
          have hq : cHm = '"' := hmode
          subst hq
          obtain ⟨W, hW1, hW2⟩ := skipWs_decomp rest0
          rw [hcs1] at hW1
          refine ⟨'{' :: (W ++ Bm), '{', cLm, W ++ Bm, ?_, rfl, rfl, ?_,
            hlastmws, ?_⟩
          · rw [hW1]
            simp [List.append_assoc]
          · exact getLast_append_some ('{' :: W) Bm cLm hlastm
          · intro rest2 ht f2 hf2
            cases f2 with
            | zero => exact absurd hf2 (Nat.not_lt_zero _)
            | succ f2' =>
              have hlen : Bm.length < f2' := by
                simp only [List.length_cons, List.length_append] at hf2
                omega
              have e1 : skipWs (W ++ ('"' :: (Bm' ++ rest2))) = '"' :: (Bm' ++ rest2) :=
                skipWs_seg W '"' (Bm' ++ rest2) hW2 (by decide)
              have e2 := hrerm rest2 ht f2' hlen
              rw [hBm, List.cons_append] at e2
              rw [hBm]
              simp only [List.cons_append, List.append_assoc, parseV, e1]
              split
              · rename_i r2 heq3
                rw [List.cons.injEq] at heq3
                exact absurd heq3.1 (by decide)
              · exact e2
      · rename_i rest0
        split at h
        · rename_i r2 heq2
          rw [Option.some.injEq, Prod.mk.injEq] at h
          obtain ⟨rfl, rfl⟩ := h
          obtain ⟨W, hW1, hW2⟩ := skipWs_decomp rest0
          rw [heq2] at hW1
          refine ⟨'[' :: (W ++ [']']), '[', ']', W ++ [']'], ?_, rfl, rfl, ?_,
            by decide, ?_⟩
          · rw [hW1]
            simp [List.append_assoc]
          · exact getLast_append_some ('[' :: W) [']'] ']' rfl
          · intro rest2 ht f2 hf2
            cases f2 with
            | zero => exact absurd hf2 (Nat.not_lt_zero _)
            | succ f2' =>
              have e1 : skipWs (W ++ (']' :: rest2)) = ']' :: rest2 :=
                skipWs_seg W ']' rest2 hW2 (by decide)
              simp only [List.cons_append, List.append_assoc, List.nil_append,
                List.singleton_append, parseV, e1]
        · obtain ⟨Bm, cHm, cLm, Bm', hcs1, hBm, hmode, hlastm, hlastmws, hrerm⟩ :=
            ih (PMode.items []) (skipWs rest0) v rest h
          have hv1 : valueStart cHm = true := hmode
          have hwsm : jsonWsB cHm = false :=
            not_pythonWs_not_jsonWs cHm (valueStart_not_pythonWs cHm hv1)
          obtain ⟨W, hW1, hW2⟩ := skipWs_decomp rest0
          rw [hcs1] at hW1
          refine ⟨'[' :: (W ++ Bm), '[', cLm, W ++ Bm, ?_, rfl, rfl, ?_,
            hlastmws, ?_⟩
          · rw [hW1]
            simp [List.append_assoc]
          · exact getLast_append_some ('[' :: W) Bm cLm hlastm
          · intro rest2 ht f2 hf2
            cases f2 with
            | zero => exact absurd hf2 (Nat.not_lt_zero _)
            | succ f2' =>
              have hlen : Bm.length < f2' := by
                simp only [List.length_cons, List.length_append] at hf2
                omega
              have e1 : skipWs (W ++ (cHm :: (Bm' ++ rest2))) = cHm :: (Bm' ++ rest2) :=
                skipWs_seg W cHm (Bm' ++ rest2) hW2 hwsm
              have e2 := hrerm rest2 ht f2' hlen
              rw [hBm, List.cons_append] at e2
              rw [hBm]
              simp only [List.cons_append, List.append_assoc, parseV, e1]
              split
              · rename_i r2 heq3
                rw [List.cons.injEq] at heq3
                exact absurd heq3.1 (valueStart_ne_rbrack cHm hv1)
              · exact e2
      · rename_i rest0
        rw [Option.map_eq_some'] at h
        obtain ⟨⟨scs, r1⟩, hsc, heqv⟩ := h
        rw [Prod.mk.injEq] at heqv
        obtain ⟨hv, hrest⟩ := heqv
        subst hv
        subst hrest
        obtain ⟨Bs, hBs1, hBslast, hBsrer⟩ := strChars_consumed rest0 scs r1 hsc
        refine ⟨'"' :: Bs, '"', '"', Bs, ?_, rfl, rfl, ?_, by decide, ?_⟩
        · rw [hBs1]
          rfl
        · exact getLast_append_some ['"'] Bs '"' hBslast
        · intro rest2 ht f2 hf2
          cases f2 with
          | zero => exact absurd hf2 (Nat.not_lt_zero _)
          | succ f2' =>
            have e1 := hBsrer rest2
            simp only [List.cons_append, parseV, e1, Option.map_some']
      · rename_i rest0
        rw [Option.some.injEq, Prod.mk.injEq] at h
        obtain ⟨rfl, rfl⟩ := h
        refine ⟨['t', 'r', 'u', 'e'], 't', 'e', ['r', 'u', 'e'], rfl, rfl, rfl,
          rfl, by decide, ?_⟩
        intro rest2 ht f2 hf2
        cases f2 with
        | zero => exact absurd hf2 (Nat.not_lt_zero _)
        | succ f2' => rfl
      · rename_i rest0
        rw [Option.some.injEq, Prod.mk.injEq] at h
        obtain ⟨rfl, rfl⟩ := h
        refine ⟨['f', 'a', 'l', 's', 'e'], 'f', 'e', ['a', 'l', 's', 'e'], rfl, rfl,
          rfl, rfl, by decide, ?_⟩
        intro rest2 ht f2 hf2
        cases f2 with
        | zero => exact absurd hf2 (Nat.not_lt_zero _)
        | succ f2' => rfl
      · rename_i rest0
        rw [Option.some.injEq, Prod.mk.injEq] at h
        obtain ⟨rfl, rfl⟩ := h
        refine ⟨['n', 'u', 'l', 'l'], 'n', 'l', ['u', 'l', 'l'], rfl, rfl, rfl,
          rfl, by decide, ?_⟩
        intro rest2 ht f2 hf2
        cases f2 with
        | zero => exact absurd hf2 (Nat.not_lt_zero _)
        | succ f2' => rfl
      · rw [Option.map_eq_some'] at h
        obtain ⟨⟨q, restn⟩, hpn, heqv⟩ := h
        rw [Prod.mk.injEq] at heqv
        obtain ⟨hv, hrest⟩ := heqv
        subst hv
        subst hrest
        obtain ⟨Bn, Bn', cH, cL, hcs, hBn, hhead, hlast, hlastd, hrern⟩ :=
          parseNumber_consumed cs q restn hpn
        have hvs : valueStart cH = true := by
          rcases hhead with rfl | hd
          · decide
          · simp [valueStart, hd]
        have hcHne : ∀ d : Char, isDigitB d = false → d ≠ '-' → cH ≠ d := by
          intro d hd1 hd2 hEq
          rcases hhead with rfl | hd
          · exact hd2 hEq.symm
          · rw [hEq] at hd
            rw [hd] at hd1
            exact absurd hd1 (by decide)
        refine ⟨Bn, cH, cL, Bn', hcs, hBn, hvs, hlast, digit_not_pythonWs cL hlastd, ?_⟩
        intro rest2 ht f2 hf2
        cases f2 with
        | zero => exact absurd hf2 (Nat.not_lt_zero _)
        | succ f2' =>
          have hr := hrern rest2 ht
          rw [hBn, List.cons_append] at hr
          rw [hBn, List.cons_append]
          simp only [parseV]
          split
          · rename_i r heq2
            rw [List.cons.injEq] at heq2
            exact absurd heq2.1 (hcHne '{' (by decide) (by decide))
          · rename_i r heq2
            rw [List.cons.injEq] at heq2
            exact absurd heq2.1 (hcHne '[' (by decide) (by decide))
          · rename_i r heq2
            rw [List.cons.injEq] at heq2
            exact absurd heq2.1 (hcHne '"' (by decide) (by decide))
          · rename_i r heq2
            rw [List.cons.injEq] at heq2
            exact absurd heq2.1 (hcHne 't' (by decide) (by decide))
          · rename_i r heq2
            rw [List.cons.injEq] at heq2
            exact absurd heq2.1 (hcHne 'f' (by decide) (by decide))
          · rename_i r heq2
            rw [List.cons.injEq] at heq2
            exact absurd heq2.1 (hcHne 'n' (by decide) (by decide))
          · rw [hr]
            rfl
    | items acc =>
      simp only [parseV] at h
      split at h
      · simp at h
      · rename_i v1 r1 heq1
        obtain ⟨B1, cH1, cL1, B1', hc1, hB1, hm1, hl1, hl1w, hr1⟩ :=
          ih PMode.value cs v1 r1 heq1
        have hv1 : valueStart cH1 = true := hm1
        split at h
        · rename_i r2 heq2
          obtain ⟨B2, cH2, cL2, B2', hc2, hB2, hm2, hl2, hl2w, hr2⟩ :=
            ih (PMode.items (acc ++ [v1])) (skipWs r2) v rest h
          have hv2 : valueStart cH2 = true := hm2
          have hws2 : jsonWsB cH2 = false :=
            not_pythonWs_not_jsonWs cH2 (valueStart_not_pythonWs cH2 hv2)
          obtain ⟨W1, hW11, hW12⟩ := skipWs_decomp r1
          rw [heq2] at hW11
          obtain ⟨W2, hW21, hW22⟩ := skipWs_decomp r2
          rw [hc2] at hW21
          refine ⟨B1 ++ (W1 ++ (',' :: (W2 ++ B2))), cH1, cL2,
            B1' ++ (W1 ++ (',' :: (W2 ++ B2))), ?_, ?_, hm1, ?_, hl2w, ?_⟩
          · rw [hc1, hW11, hW21]
            simp [List.append_assoc]
          · rw [hB1, List.cons_append]
          · have hx : B1 ++ (W1 ++ (',' :: (W2 ++ B2))) =
                (B1 ++ (W1 ++ (',' :: W2))) ++ B2 := by
              simp [List.append_assoc]
            rw [hx]
            exact getLast_append_some _ B2 cL2 hl2
          · intro rest2 ht f2 hf2
            cases f2 with
            | zero => exact absurd hf2 (Nat.not_lt_zero _)
            | succ f2' =>
              have hlen1 : B1.length < f2' := by
                simp only [List.length_append, List.length_cons] at hf2
                omega
              have hlen2 : B2.length < f2' := by
                simp only [List.length_append, List.length_cons] at hf2
                omega
              have htz : tailOk r1 (W1 ++ (',' :: (W2 ++ (B2 ++ rest2)))) := by
                rw [hW11, hW21]
                exact tailOk_append_left W1 _ _ (tailOk_append_left [','] _ _
                  (tailOk_append_left W2 _ _ (tailOk_append_left B2 _ _ ht)))
              have e1 := hr1 (W1 ++ (',' :: (W2 ++ (B2 ++ rest2)))) htz f2' hlen1
              have e2 : skipWs (W1 ++ (',' :: (W2 ++ (B2 ++ rest2)))) =
                  ',' :: (W2 ++ (B2 ++ rest2)) :=
                skipWs_seg W1 ',' _ hW12 (by decide)
              have e3 : skipWs (W2 ++ (B2 ++ rest2)) = B2 ++ rest2 := by
                rw [hB2, List.cons_append]
                exact skipWs_seg W2 cH2 _ hW22 hws2
              have e4 := hr2 rest2 ht f2' hlen2
              simp only [List.cons_append, List.append_assoc, parseV, e1, e2, e3, e4]
        · rename_i r2 heq2
          rw [Option.some.injEq, Prod.mk.injEq] at h
          obtain ⟨rfl, rfl⟩ := h
          obtain ⟨W1, hW11, hW12⟩ := skipWs_decomp r1
          rw [heq2] at hW11
          refine ⟨B1 ++ (W1 ++ [']']), cH1, ']', B1' ++ (W1 ++ [']']), ?_, ?_, hm1,
            ?_, by decide, ?_⟩
          · rw [hc1, hW11]
            simp [List.append_assoc]
          · rw [hB1, List.cons_append]
          · have hx : B1 ++ (W1 ++ [']']) = (B1 ++ W1) ++ [']'] := by
              simp [List.append_assoc]
            rw [hx]
            exact getLast_append_some _ [']'] ']' rfl
          · intro rest2 ht f2 hf2
            cases f2 with
            | zero => exact absurd hf2 (Nat.not_lt_zero _)
            | succ f2' =>
              have hlen1 : B1.length < f2' := by
                simp only [List.length_append, List.length_cons] at hf2
                omega
              have htz : tailOk r1 (W1 ++ (']' :: rest2)) := by
                rw [hW11]
                exact tailOk_append_left W1 _ _ (tailOk_append_left [']'] _ _ ht)
              have e1 := hr1 (W1 ++ (']' :: rest2)) htz f2' hlen1
              have e2 : skipWs (W1 ++ (']' :: rest2)) = ']' :: rest2 :=
                skipWs_seg W1 ']' _ hW12 (by decide)
              simp only [List.cons_append, List.append_assoc, List.nil_append,
                List.singleton_append, parseV, e1, e2]
        · simp at h
    | members acc =>
      simp only [parseV] at h
      split at h
      · rename_i rest0
        split at h
        · simp at h
        · rename_i kcs r1 heq2
          split at h
          · rename_i r2 heq3
            split at h
            · simp at h
            · rename_i v1 r3 heq4
              obtain ⟨B1, cH1, cL1, B1', hc1, hB1, hm1, hl1, hl1w, hr1⟩ :=
                ih PMode.value (skipWs r2) v1 r3 heq4
              have hv1 : valueStart cH1 = true := hm1
              have hws1 : jsonWsB cH1 = false :=
                not_pythonWs_not_jsonWs cH1 (valueStart_not_pythonWs cH1 hv1)
              obtain ⟨Bs, hBs1, hBslast, hBsrer⟩ := strChars_consumed rest0 kcs r1 heq2
              obtain ⟨W1, hW11, hW12⟩ := skipWs_decomp r1
              rw [heq3] at hW11
              obtain ⟨W2, hW21, hW22⟩ := skipWs_decomp r2
              rw [hc1] at hW21
              split at h
              · rename_i r4 heq5
                obtain ⟨B2, cH2, cL2, B2', hc2, hB2, hm2, hl2, hl2w, hr2⟩ :=
                  ih (PMode.members (objInsert acc (String.mk kcs) v1)) (skipWs r4) v rest h
                have hq2 : cH2 = '"' := hm2
                subst hq2
                obtain ⟨W3, hW31, hW32⟩ := skipWs_decomp r3
                rw [heq5] at hW31
                obtain ⟨W4, hW41, hW42⟩ := skipWs_decomp r4
                rw [hc2] at hW41
                refine ⟨'"' :: (Bs ++ (W1 ++ (':' :: (W2 ++ (B1 ++ (W3 ++ (',' ::
                  (W4 ++ B2)))))))), '"', cL2, Bs ++ (W1 ++ (':' :: (W2 ++ (B1 ++
                  (W3 ++ (',' :: (W4 ++ B2))))))), ?_, rfl, rfl, ?_, hl2w, ?_⟩
                · rw [hBs1, hW11, hW21, hW31, hW41]
                  simp [List.append_assoc]
                · have hx : '"' :: (Bs ++ (W1 ++ (':' :: (W2 ++ (B1 ++ (W3 ++ (',' ::
                      (W4 ++ B2)))))))) =
                      ('"' :: (Bs ++ (W1 ++ (':' :: (W2 ++ (B1 ++ (W3 ++ (',' ::
                      W4)))))))) ++ B2 := by
                    simp [List.append_assoc]
                  rw [hx]
                  exact getLast_append_some _ B2 cL2 hl2
                · intro rest2 ht f2 hf2
                  cases f2 with
                  | zero => exact absurd hf2 (Nat.not_lt_zero _)
                  | succ f2' =>
                    have hlen1 : B1.length < f2' := by
                      simp only [List.length_append, List.length_cons] at hf2
                      omega
                    have hlen2 : B2.length < f2' := by
                      simp only [List.length_append, List.length_cons] at hf2
                      omega
                    have e1 := hBsrer (W1 ++ (':' :: (W2 ++ (B1 ++ (W3 ++ (',' ::
                      (W4 ++ (B2 ++ rest2))))))))
                    have e2 : skipWs (W1 ++ (':' :: (W2 ++ (B1 ++ (W3 ++ (',' ::
                        (W4 ++ (B2 ++ rest2)))))))) = ':' :: (W2 ++ (B1 ++ (W3 ++
                        (',' :: (W4 ++ (B2 ++ rest2)))))) :=
                      skipWs_seg W1 ':' _ hW12 (by decide)
                    have e3 : skipWs (W2 ++ (B1 ++ (W3 ++ (',' :: (W4 ++ (B2 ++
                        rest2)))))) = B1 ++ (W3 ++ (',' :: (W4 ++ (B2 ++ rest2)))) := by
                      rw [hB1, List.cons_append]
                      exact skipWs_seg W2 cH1 _ hW22 hws1
                    have htz : tailOk r3 (W3 ++ (',' :: (W4 ++ (B2 ++ rest2)))) := by
                      rw [hW31, hW41]
                      exact tailOk_append_left W3 _ _ (tailOk_append_left [','] _ _
                        (tailOk_append_left W4 _ _ (tailOk_append_left B2 _ _ ht)))
                    have e4 := hr1 (W3 ++ (',' :: (W4 ++ (B2 ++ rest2)))) htz f2' hlen1
                    have e5 : skipWs (W3 ++ (',' :: (W4 ++ (B2 ++ rest2)))) =
                        ',' :: (W4 ++ (B2 ++ rest2)) :=
                      skipWs_seg W3 ',' _ hW32 (by decide)
                    have e6 : skipWs (W4 ++ (B2 ++ rest2)) = B2 ++ rest2 := by
                      rw [hB2, List.cons_append]
                      exact skipWs_seg W4 '"' _ hW42 (by decide)
                    have e7 := hr2 rest2 ht f2' hlen2
                    simp only [List.cons_append, List.append_assoc, parseV,
                      e1, e2, e3, e4, e5, e6, e7]
              · rename_i r4 heq5
                rw [Option.some.injEq, Prod.mk.injEq] at h
                obtain ⟨rfl, rfl⟩ := h
                obtain ⟨W3, hW31, hW32⟩ := skipWs_decomp r3
                rw [heq5] at hW31
                refine ⟨'"' :: (Bs ++ (W1 ++ (':' :: (W2 ++ (B1 ++ (W3 ++ ['}'])))))),
                  '"', '}', Bs ++ (W1 ++ (':' :: (W2 ++ (B1 ++ (W3 ++ ['}']))))),
                  ?_, rfl, rfl, ?_, by decide, ?_⟩
                · rw [hBs1, hW11, hW21, hW31]
                  simp [List.append_assoc]
                · have hx : '"' :: (Bs ++ (W1 ++ (':' :: (W2 ++ (B1 ++ (W3 ++ ['}'])))))) =
                      ('"' :: (Bs ++ (W1 ++ (':' :: (W2 ++ (B1 ++ W3)))))) ++ ['}'] := by
                    simp [List.append_assoc]
                  rw [hx]
                  exact getLast_append_some _ ['}'] '}' rfl
                · intro rest2 ht f2 hf2
                  cases f2 with
                  | zero => exact absurd hf2 (Nat.not_lt_zero _)
                  | succ f2' =>
                    have hlen1 : B1.length < f2' := by
                      simp only [List.length_append, List.length_cons] at hf2
                      omega
                    have e1 := hBsrer (W1 ++ (':' :: (W2 ++ (B1 ++ (W3 ++ ('}' ::
                      rest2))))))
                    have e2 : skipWs (W1 ++ (':' :: (W2 ++ (B1 ++ (W3 ++ ('}' ::
                        rest2)))))) = ':' :: (W2 ++ (B1 ++ (W3 ++ ('}' :: rest2)))) :=
                      skipWs_seg W1 ':' _ hW12 (by decide)
                    have e3 : skipWs (W2 ++ (B1 ++ (W3 ++ ('}' :: rest2)))) =
                        B1 ++ (W3 ++ ('}' :: rest2)) := by
                      rw [hB1, List.cons_append]
                      exact skipWs_seg W2 cH1 _ hW22 hws1
                    have htz : tailOk r3 (W3 ++ ('}' :: rest2)) := by
                      rw [hW31]
                      exact tailOk_append_left W3 _ _ (tailOk_append_left ['}'] _ _ ht)
                    have e4 := hr1 (W3 ++ ('}' :: rest2)) htz f2' hlen1
                    have e5 : skipWs (W3 ++ ('}' :: rest2)) = '}' :: rest2 :=
                      skipWs_seg W3 '}' _ hW32 (by decide)
                    simp only [List.cons_append, List.append_assoc, List.nil_append,
                      List.singleton_append, parseV, e1, e2, e3, e4, e5]
              · simp at h
          · simp at h
      · simp at h

/-! ## Whitespace-strip invariance of `json_loads`, and claim C7 -/

theorem json_loads_pyStrip (t : String) (v : J) (h : json_loads t = some v) :
    json_loads (pyStrip t) = some v := by
  simp only [json_loads] at h
  rcases hp : parseV ((skipWs t.data).length + 1) PMode.value (skipWs t.data) with
    _ | ⟨v', rest⟩
  · rw [hp] at h
    simp at h
  · rw [hp] at h
    have h2 : (if (skipWs rest).isEmpty = true then some v' else none) = some v := h
    have hcond : (skipWs rest).isEmpty = true := by
      by_cases hc : (skipWs rest).isEmpty = true
      · exact hc
      · rw [if_neg hc] at h2
        simp at h2
    rw [if_pos hcond, Option.some.injEq] at h2
    subst h2
    have hsk : skipWs rest = [] := by
      cases hsk2 : skipWs rest with
      | nil => rfl
      | cons a l =>
        rw [hsk2] at hcond
        simp at hcond
    have hrest_ws : ∀ c ∈ rest, jsonWsB c = true := skipWs_all_ws rest hsk
    obtain ⟨B, cH, cL, B', hcs1, hB, hmode, hlast, hlastws, hrer⟩ :=
      parseV_consumed ((skipWs t.data).length + 1) PMode.value (skipWs t.data) v' rest hp
    have hv1 : valueStart cH = true := hmode
    have hpwsH : pythonWsB cH = false := valueStart_not_pythonWs cH hv1
    have hjwsH : jsonWsB cH = false := not_pythonWs_not_jsonWs cH hpwsH
    obtain ⟨W0, hW01, hW02⟩ := skipWs_decomp t.data
    rw [hcs1] at hW01
    have hdrop : t.data.dropWhile pythonWsB = B ++ rest := by
      rw [hW01, dropWhile_pws_all_append W0 _ (fun c hc => jsonWs_pythonWs c (hW02 c hc)),
        hB, List.cons_append]
      exact dropWhile_pws_cons cH (B' ++ rest) hpwsH
    have hstrip : pyStripL t.data = B := by
      rw [pyStripL, hdrop]
      exact trimRight_ws B rest hrest_ws cL hlast hlastws
    have hski : skipWs (pyStrip t).data = B := by
      rw [pyStrip, hstrip, hB]
      exact skipWs_cons_not_ws cH B' hjwsH
    have hpv : parseV ((skipWs (pyStrip t).data).length + 1) PMode.value
        (skipWs (pyStrip t).data) = some (v', []) := by
      rw [hski]
      have hx := hrer [] ⟨rest, (List.nil_append rest).symm, hrest_ws⟩
        (B.length + 1) (Nat.lt_succ_self _)
      rw [List.append_nil] at hx
      exact hx
    simp only [json_loads, hpv]
    rfl

/-- C7 counterexample: the input `["<think>"]` is already valid JSON, yet
`sanitize_model_json` deletes the think-tag inside the string literal, so
the sanitized text parses to a different JSON structure (`[""]`). -/
theorem sanitize_think_tag_roundtrip_cex :
    json_loads (String.mk ['[', '"', '<', 't', 'h', 'i', 'n', 'k', '>', '"', ']']) =
      some (J.arr [J.str (String.mk ['<', 't', 'h', 'i', 'n', 'k', '>'])]) ∧
    json_loads (sanitize_model_json
        (String.mk ['[', '"', '<', 't', 'h', 'i', 'n', 'k', '>', '"', ']'])) =
      some (J.arr [J.str (String.mk [])]) ∧
    J.arr [J.str (String.mk ['<', 't', 'h', 'i', 'n', 'k', '>'])] ≠
      J.arr [J.str (String.mk [])] := by
  refine ⟨rfl, rfl, ?_⟩
  simp

/-- C7 (amended): if the input is already valid JSON and the stripped text
is left unchanged by the code-fence and think-tag substitutions, then
`sanitize_model_json` returns a string that parses to the identical JSON
structure. -/
theorem sanitize_model_json_roundtrip (t : String) (v : J)
    (h : json_loads t = some v)
    (hf : fenceSub (pyStrip t) = pyStrip t)
    (hk : thinkSub (pyStrip t) = pyStrip t) :
    json_loads (sanitize_model_json t) = some v := by
  have hs : json_loads (pyStrip t) = some v := json_loads_pyStrip t v h
  have ht2 : thinkSub (fenceSub (pyStrip t)) = pyStrip t := by
    rw [hf, hk]
  have hsan : sanitize_model_json t = pyStrip t := by
    simp only [sanitize_model_json, ht2, hs]
  rw [hsan]
  exact hs

theorem sanitize_model_json_roundtrip_witness :
    json_loads (sanitize_model_json (String.mk [' ', '[', '1', ',', '2', ']', ' '])) =
      some (J.arr [J.num 1, J.num 2]) := by
  have h : json_loads (String.mk [' ', '[', '1', ',', '2', ']', ' ']) =
      some (J.arr [J.num 1, J.num 2]) := by
    with_unfolding_all rfl
  exact sanitize_model_json_roundtrip _ _ h rfl rfl

end DocAnalyzer
